import Mathlib

/-!
# Selene relay (`server.js`): a shallow embedding and its verified properties

The relay bridges serial links (Skirnir) and per-node MQTT sessions.  Its
state is the three module variables `mqtts`, `mqtt_caches` and
`mqtt_directory`; its behaviour is the set of event handlers registered on
`skirnir` and on every MQTT client created by `start_mqtt`.

Modelling conventions

* A JavaScript object used as a dictionary is an insertion-ordered property
  list (`Obj`): reading a missing key gives `undefined` (`none`), assigning an
  existing key keeps its position, assigning a new key appends, `delete`
  removes the key.  Property keys are ordinary keys (node addresses, device
  paths, topics of the form `Se/...`).
* Objects with identity are referred to by index: cache objects live in
  `heap`, MQTT clients in `sessions`.  `start_mqtt` captures the cache object
  it is given, exactly as the closure in the source does.
* Handlers return an `Outcome`: the state after the handler, the calls it
  issued on the external libraries (`Effect`), and the uncaught `TypeError`,
  if any.  Logging calls are not recorded.  `Reachable` keeps the state a
  failing handler leaves behind, so what holds in every reachable state holds
  whether or not the process survives the exception.
* The callback given to `end(true, cb)` runs later, as an event of its own;
  until then the call is kept in `pending`.
* `closed` and `log` are history variables: the sessions whose end callback
  has run, and every effect issued so far.
* The packet codec (`selene-packets`) is not part of the repository: the
  functions the relay calls are the fields of `Codec`.
-/

namespace SeleneRelay

/-! ## JavaScript objects as property lists -/

/-- Insertion-ordered property list of a JavaScript object. -/
structure Obj (κ ν : Type) where
  entries : List (κ × ν)
  deriving DecidableEq, Repr

namespace Obj

variable {κ ν : Type} [DecidableEq κ]

/-- The empty object literal. -/
def empty : Obj κ ν := ⟨[]⟩

/-- Property lookup on an entry list: first entry with the key. -/
def lookup (k : κ) : List (κ × ν) → Option ν
  | [] => none
  | (k', v) :: rest => if k' = k then some v else lookup k rest

/-- Property assignment on an entry list. -/
def assign (k : κ) (v : ν) : List (κ × ν) → List (κ × ν)
  | [] => [(k, v)]
  | (k', v') :: rest => if k' = k then (k', v) :: rest else (k', v') :: assign k v rest

/-- Reading `o[k]`; `none` stands for `undefined`. -/
def get (o : Obj κ ν) (k : κ) : Option ν := lookup k o.entries

/-- Writing `o[k] = v`. -/
def set (o : Obj κ ν) (k : κ) (v : ν) : Obj κ ν := ⟨assign k v o.entries⟩

/-- Property removal on an entry list. -/
def remove (k : κ) : List (κ × ν) → List (κ × ν)
  | [] => []
  | (k', v) :: rest => if k' = k then remove k rest else (k', v) :: remove k rest

/-- Removing a property: `delete o[k]`. -/
def del (o : Obj κ ν) (k : κ) : Obj κ ν := ⟨remove k o.entries⟩

end Obj

/-! ## Data -/

abbrev Address := Nat
abbrev Link := String
abbrev Topic := String
abbrev Bytes := List Nat

/-- Result of `packet.toMqtt()`. -/
structure MqttMessage where
  topic : Topic
  message : Bytes
  deriving DecidableEq, Repr

/-- The part of `selene-packets` that `server.js` calls, over the codec's
packet type `P`. -/
structure Codec (P : Type) where
  /-- Function `Packet.fromBuffer(buffer)`, `none` for `null`. -/
  fromBuffer : Bytes → Option P
  /-- Property `packet.address`. -/
  address : P → Address
  /-- Method `packet.toMqtt()`. -/
  toMqtt : P → MqttMessage
  /-- Function `Packet.fromMqtt(topic, message)`; the source calls a method on the result. -/
  fromMqtt : Topic → Bytes → P
  /-- Method `packet.toBuffer()`, `none` for `null`. -/
  toBuffer : P → Option Bytes
  /-- Constructor `new Packet(address, type)`. -/
  construct : Nat → String → P

/-- The `will` option given to `mqtt.connect`. -/
structure Will where
  topic : Topic
  payload : Bytes
  retain : Bool
  deriving DecidableEq, Repr

/-- An MQTT client made by `start_mqtt`: the closure variables `address` and
`cache` (a reference into the heap) and the will it was opened with. -/
structure SessionRec where
  address : Address
  cache : Nat
  will : Will
  deriving DecidableEq, Repr

/-- A call `mqtts[v].end(true, cb)` whose callback has not run yet: the client
it was called on and the `v` its callback closes over. -/
structure PendingClose where
  session : Nat
  v : Address
  deriving DecidableEq, Repr

/-- Calls issued on the MQTT clients and on Skirnir. -/
inductive Effect where
  | connect (session : Nat) (url : String) (queueQoSZero : Bool) (will : Will)
  | publish (session : Nat) (topic : Topic) (payload : Bytes) (retain : Bool) (qos : Nat)
  | subscribe (session : Nat) (pattern : Topic)
  | endSession (session : Nat) (force : Bool)
  | removeAllListeners (session : Nat)
  | send (device : Link) (buffer : Option Bytes)
  | broadcast (buffer : Bytes)
  deriving DecidableEq, Repr

/-- Relay state. -/
structure State where
  /-- Variable `mqtts`: address to MQTT client. -/
  mqtts : Obj Address Nat
  /-- Variable `mqtt_caches`: address to cache object. -/
  mqtt_caches : Obj Address Nat
  /-- Variable `mqtt_directory`: serial connection to array of addresses. -/
  mqtt_directory : Obj Link (List Address)
  /-- Cache objects, by reference. -/
  heap : List (Obj Topic Bytes)
  /-- MQTT clients created so far, by reference. -/
  sessions : List SessionRec
  /-- End calls whose callback has not run. -/
  pending : List PendingClose
  /-- Clients on which `removeAllListeners()` was called. -/
  removed : List Nat
  /-- History: clients whose end callback has run. -/
  closed : List Nat
  /-- History: all effects issued so far. -/
  log : List Effect
  deriving DecidableEq, Repr

/-- State at program start. -/
def init : State :=
  { mqtts := Obj.empty, mqtt_caches := Obj.empty, mqtt_directory := Obj.empty,
    heap := [], sessions := [], pending := [], removed := [], closed := [], log := [] }

/-- What running a handler gives. -/
structure Outcome where
  state : State
  effects : List Effect
  error : Option String
  deriving DecidableEq, Repr

/-- Events the relay reacts to. -/
inductive Event where
  | skirnirConnect (device : Link)
  | skirnirMessage (device : Link) (data : Bytes)
  | skirnirDisconnect (device : Link)
  | endCallback (session : Nat)
  | mqttConnect (session : Nat)
  | mqttMessage (session : Nat) (topic : Topic) (message : Bytes)
  deriving DecidableEq, Repr

/-! ## The handlers of `server.js` -/

/-- The topic `'Se/' + address + '/connection'`. -/
def connectionTopic (address : Address) : Topic :=
  "Se/" ++ toString address ++ "/connection"

/-- The pattern `'Se/' + address + '/pin/+/r'`. -/
def pinPattern (address : Address) : Topic :=
  "Se/" ++ toString address ++ "/pin/+/r"

/-- The message of the `TypeError` raised by a method call on `undefined`. -/
def typeError : String := "TypeError"

/-- Function `start_mqtt(address, cache)`: opens a client with the offline will
and returns it. -/
def start_mqtt (s : State) (address : Address) (cache : Nat) : State × Nat × List Effect :=
  let mqtt_to_server := s.sessions.length
  let will : Will := ⟨connectionTopic address, [0], true⟩
  ({ s with sessions := s.sessions ++ [⟨address, cache, will⟩] },
   mqtt_to_server,
   [Effect.connect mqtt_to_server "mqtt://localhost:1883" false will])

/-- The `'connect'` listener that `start_mqtt` registers on its client. -/
def onSessionConnect (s : State) (mqtt_to_server : Nat) : Outcome :=
  match s.sessions[mqtt_to_server]? with
  | none => ⟨s, [], none⟩
  | some r =>
    if mqtt_to_server ∈ s.removed then ⟨s, [], none⟩
    else
      let replay : List Effect :=
        match s.heap[r.cache]? with
        | none => []
        | some cache => cache.entries.map (fun e => Effect.publish mqtt_to_server e.1 e.2 true 0)
      ⟨s,
       [Effect.publish mqtt_to_server (connectionTopic r.address) [1] true 0,
        Effect.subscribe mqtt_to_server (pinPattern r.address)] ++ replay,
       none⟩

/-- Function `onmessage(topic, message)`. -/
def onmessage {P : Type} (codec : Codec P) (s : State) (topic : Topic) (message : Bytes) :
    Outcome :=
  match codec.toBuffer (codec.fromMqtt topic message) with
  | some buffer => ⟨s, [Effect.broadcast buffer], none⟩
  | none => ⟨s, [], none⟩

/-- The `'message'` listener of a client: `onmessage`, while its listeners are
in place. -/
def onSessionMessage {P : Type} (codec : Codec P) (s : State) (session : Nat)
    (topic : Topic) (message : Bytes) : Outcome :=
  if session < s.sessions.length ∧ session ∉ s.removed then onmessage codec s topic message
  else ⟨s, [], none⟩

/-- The statement `if(mqtt_caches[address] === undefined) mqtt_caches[address] = {}`,
with the object `mqtt_caches[address]` refers to afterwards. -/
def ensureCache (s : State) (address : Address) : State × Nat :=
  match s.mqtt_caches.get address with
  | none =>
    ({ s with heap := s.heap ++ [Obj.empty],
              mqtt_caches := s.mqtt_caches.set address s.heap.length },
     s.heap.length)
  | some cache => (s, cache)

/-- The assignment `cache[topic] = message` on a cache object. -/
def cacheStore (s : State) (cache : Nat) (topic : Topic) (message : Bytes) : State :=
  { s with heap := s.heap.modify (fun o => o.set topic message) cache }

/-- The handler `skirnir.on('message', ...)`. -/
def onSkirnirMessage {P : Type} (codec : Codec P) (s : State) (device : Link) (data : Bytes) :
    Outcome :=
  match codec.fromBuffer data with
  | none => ⟨s, [], none⟩
  | some packet =>
    let mqtt_message := codec.toMqtt packet
    let address := codec.address packet
    let s1 := (ensureCache s address).1
    let cache := (ensureCache s address).2
    let s2 := cacheStore s1 cache mqtt_message.topic mqtt_message.message
    match s2.mqtts.get address with
    | none =>
      let s3 := (start_mqtt s2 address cache).1
      let client := (start_mqtt s2 address cache).2.1
      let effs := (start_mqtt s2 address cache).2.2
      let s4 : State := { s3 with mqtts := s3.mqtts.set address client }
      match s4.mqtt_directory.get device with
      | none => ⟨s4, effs, some typeError⟩
      | some arr =>
        ⟨{ s4 with mqtt_directory := s4.mqtt_directory.set device (arr ++ [address]) },
         effs, none⟩
    | some client =>
      ⟨s2, [Effect.publish client mqtt_message.topic mqtt_message.message true 0], none⟩

/-- The handler `skirnir.on('connect', ...)`. -/
def onSkirnirConnect {P : Type} (codec : Codec P) (s : State) (device : Link) : Outcome :=
  let s1 : State := { s with mqtt_directory := s.mqtt_directory.set device [] }
  let discovery_packet := codec.toBuffer (codec.construct 0xFFFFFFFF "discovery")
  ⟨s1, [Effect.send device discovery_packet], none⟩

/-- The body of the `forEach` in the disconnect handler, for one `v`. -/
def disconnectEach (s : State) (v : Address) : Outcome :=
  match s.mqtts.get v with
  | none => ⟨s, [], some typeError⟩
  | some client =>
    ⟨{ s with pending := s.pending ++ [⟨client, v⟩] },
     [Effect.publish client (connectionTopic v) [0] true 0, Effect.endSession client true],
     none⟩

/-- The loop `mqtt_directory[e.device].forEach(...)`: stops at the first throw. -/
def disconnectLoop (s : State) : List Address → Outcome
  | [] => ⟨s, [], none⟩
  | v :: rest =>
    let o := disconnectEach s v
    match o.error with
    | some e => ⟨o.state, o.effects, some e⟩
    | none =>
      let o2 := disconnectLoop o.state rest
      ⟨o2.state, o.effects ++ o2.effects, o2.error⟩

/-- The handler `skirnir.on('disconnect', ...)`. -/
def onSkirnirDisconnect (s : State) (device : Link) : Outcome :=
  match s.mqtt_directory.get device with
  | none => ⟨s, [], some typeError⟩
  | some arr =>
    let o := disconnectLoop s arr
    match o.error with
    | some e => ⟨o.state, o.effects, some e⟩
    | none =>
      ⟨{ o.state with mqtt_directory := o.state.mqtt_directory.del device }, o.effects, none⟩

/-- The callback given to `mqtts[v].end(true, ...)`, closing over `v`. -/
def endCallbackBody (s : State) (v : Address) : Outcome :=
  match s.mqtts.get v with
  | none => ⟨s, [], some typeError⟩
  | some client =>
    ⟨{ s with removed := client :: s.removed,
              mqtts := s.mqtts.del v,
              mqtt_caches := s.mqtt_caches.del v },
     [Effect.removeAllListeners client], none⟩

/-- The end call on `session` completes: its callback is taken out of `pending`
and run.  Nothing happens when no such call is pending. -/
def onEndCallback (s : State) (session : Nat) : Outcome :=
  match s.pending.find? (fun p => decide (p.session = session)) with
  | none => ⟨s, [], none⟩
  | some p =>
    endCallbackBody { s with pending := s.pending.erase p, closed := p.session :: s.closed } p.v

/-- Dispatch of an event to its handler. -/
def handle {P : Type} (codec : Codec P) (s : State) : Event → Outcome
  | .skirnirConnect device => onSkirnirConnect codec s device
  | .skirnirMessage device data => onSkirnirMessage codec s device data
  | .skirnirDisconnect device => onSkirnirDisconnect s device
  | .endCallback session => onEndCallback s session
  | .mqttConnect session => onSessionConnect s session
  | .mqttMessage session topic message => onSessionMessage codec s session topic message

/-- One event: the handler runs and its effects are added to the history. -/
def step {P : Type} (codec : Codec P) (s : State) (e : Event) : State :=
  let o := handle codec s e
  { o.state with log := o.state.log ++ o.effects }

/-- A sequence of events. -/
def run {P : Type} (codec : Codec P) (s : State) (es : List Event) : State :=
  es.foldl (step codec) s

/-- States reachable from program start by any sequence of events. -/
inductive Reachable {P : Type} (codec : Codec P) : State → Prop where
  | init : Reachable codec init
  | step (s : State) (e : Event) : Reachable codec s → Reachable codec (step codec s e)

/-! ## A small codec for concrete runs -/

/-- Packet of the example codec. -/
structure DemoPacket where
  address : Nat
  pin : Nat
  payload : Bytes
  valid : Bool
  deriving DecidableEq, Repr

/-- Example codec: a frame `[address, pin, value]` is a reading of a pin,
every other frame is rejected; a broker message gives a frame only when its
payload has one byte. -/
def demoCodec : Codec DemoPacket where
  fromBuffer := fun b =>
    match b with
    | [a, p, x] => some ⟨a, p, [x], true⟩
    | _ => none
  address := fun p => p.address
  toMqtt := fun p => ⟨"Se/" ++ toString p.address ++ "/pin/" ++ toString p.pin, p.payload⟩
  fromMqtt := fun _ m =>
    match m with
    | [x] => ⟨0, 0, [x], true⟩
    | _ => ⟨0, 0, [], false⟩
  toBuffer := fun p => if p.valid then some (p.address :: p.pin :: p.payload) else none
  construct := fun a _ => ⟨a, 0, [], true⟩

/-- Device path used in the concrete runs. -/
def demoLink : Link := "/dev/ttyUSB0"

/-- Concrete state: the link attached, then one frame of node 7 received. -/
def demoState : State :=
  step demoCodec (step demoCodec init (.skirnirConnect demoLink))
    (.skirnirMessage demoLink [7, 1, 22])

/-- Concrete state: as `demoState`, then the link detached. -/
def demoDetached : State :=
  step demoCodec demoState (.skirnirDisconnect demoLink)

/-- Concrete state: as `demoState`, then a second attach event for the same
link with no detach in between. -/
def demoReattached : State :=
  step demoCodec demoState (.skirnirConnect demoLink)

/-- Concrete state: the link attached, nothing received yet. -/
def demoAttached : State :=
  step demoCodec init (.skirnirConnect demoLink)

/-- Concrete event sequence without a detach: frames of node 7 on two pins, a
client connect, a frame of node 9, and a newer reading of pin 1 of node 7. -/
def demoEvents : List Event :=
  [.skirnirMessage demoLink [7, 1, 22], .skirnirMessage demoLink [7, 2, 5], .mqttConnect 0,
   .skirnirMessage demoLink [9, 1, 1], .skirnirMessage demoLink [7, 1, 23]]

/-- Concrete state: as `demoDetached`, then the link attached again; the end
call for the client of node 7 is still waiting for its callback. -/
def demoTeardown : State :=
  step demoCodec demoDetached (.skirnirConnect demoLink)

/-- Concrete event sequence without a detach: a frame of node 7, the end
callback of client 0, another frame of node 7. -/
def demoRace : List Event :=
  [.skirnirMessage demoLink [7, 2, 5], .endCallback 0, .skirnirMessage demoLink [7, 3, 9]]

/-! ## Notions used in the statements -/

/-- The cache object that `mqtt_caches[address]` refers to, when there is one. -/
def cacheOf (s : State) (address : Address) : Option (Obj Topic Bytes) :=
  match s.mqtt_caches.get address with
  | none => none
  | some c => s.heap[c]?

/-- The value `mqtt_caches[address][topic]`, `none` when the cache or the
topic is missing. -/
def cacheEntry (s : State) (address : Address) (topic : Topic) : Option Bytes :=
  match cacheOf s address with
  | none => none
  | some o => o.get topic

/-- The topic and message of a frame event that decodes to a packet of
`address`; `none` for every other event. -/
def frameOf {P : Type} (codec : Codec P) (address : Address) : Event → Option MqttMessage
  | .skirnirMessage _ data =>
    match codec.fromBuffer data with
    | some packet => if codec.address packet = address then some (codec.toMqtt packet) else none
    | none => none
  | _ => none

/-- The topics and messages of the frames for `address` in an event sequence,
in arrival order. -/
def framesFor {P : Type} (codec : Codec P) (address : Address) (es : List Event) :
    List MqttMessage :=
  es.filterMap (frameOf codec address)

/-- The payload of the last message of the list that has the given topic. -/
def lastPayload (ms : List MqttMessage) (topic : Topic) : Option Bytes :=
  (ms.reverse.find? (fun m => decide (m.topic = topic))).map (fun m => m.message)

/-- Whether the event is a detach. -/
def isDisconnect : Event → Bool
  | .skirnirDisconnect _ => true
  | _ => false

/-- The end calls the disconnect handler issues for the addresses of an array. -/
def closesOf (s : State) (arr : List Address) : List PendingClose :=
  arr.filterMap (fun v => (s.mqtts.get v).map (fun client => ⟨client, v⟩))

/-- The offline publish followed by the end call, for client `client` of
address `v`. -/
def offlineThenEnd (client : Nat) (v : Address) : List Effect :=
  [Effect.publish client (connectionTopic v) [0] true 0, Effect.endSession client true]

/-- The calls the disconnect handler issues for the addresses of an array. -/
def detachEffects (s : State) (arr : List Address) : List Effect :=
  (closesOf s arr).flatMap (fun p => offlineThenEnd p.session p.v)

/-- A client is live: created and its end callback has not run. -/
def Live (s : State) (session : Nat) : Prop :=
  session < s.sessions.length ∧ session ∉ s.closed

/-- Address `v` is in the array of link `device`. -/
def ListedUnder (s : State) (device : Link) (v : Address) : Prop :=
  ∃ arr, s.mqtt_directory.get device = some arr ∧ v ∈ arr

/-- An end call for address `v` is waiting for its callback. -/
def ClosePending (s : State) (v : Address) : Prop :=
  ∃ p ∈ s.pending, p.v = v

/-- Every address with a client and no pending end call is in the array of
some link. -/
def Covered (s : State) : Prop :=
  ∀ v client, s.mqtts.get v = some client → ¬ ClosePending s v → ∃ device, ListedUnder s device v

/-- States reachable from program start by sequences of events in which every
handler completes without an error and every attach names a link that has no
directory entry. -/
inductive ReachableOrdered {P : Type} (codec : Codec P) : State → Prop where
  | init : ReachableOrdered codec init
  | step (s : State) (e : Event) :
      ReachableOrdered codec s →
      (handle codec s e).error = none →
      (∀ device, e = .skirnirConnect device → s.mqtt_directory.get device = none) →
      ReachableOrdered codec (step codec s e)

/-- Consistency of the relay state, kept by every handler. -/
structure Inv (s : State) : Prop where
  sess_ok : ∀ v client, s.mqtts.get v = some client →
    ∃ r, s.sessions[client]? = some r ∧ r.address = v ∧
      s.mqtt_caches.get v = some r.cache ∧ client ∉ s.closed
  pend_ok : ∀ p ∈ s.pending, s.mqtts.get p.v = some p.session
  pend_nodup : (s.pending.map (fun p => p.v)).Nodup
  dir_ok : ∀ device arr, s.mqtt_directory.get device = some arr →
    arr.Nodup ∧ ∀ v ∈ arr, s.mqtts.get v ≠ none ∧ ∀ p ∈ s.pending, p.v ≠ v
  dir_inj : ∀ d₁ d₂ a₁ a₂ v, s.mqtt_directory.get d₁ = some a₁ →
    s.mqtt_directory.get d₂ = some a₂ → v ∈ a₁ → v ∈ a₂ → d₁ = d₂
  live_ok : ∀ (client : Nat) (r : SessionRec), s.sessions[client]? = some r → client ∉ s.closed →
    s.mqtts.get r.address = some client
  rem_eq : s.removed = s.closed
  closed_lt : ∀ client ∈ s.closed, client < s.sessions.length
  cache_lt : ∀ a c, s.mqtt_caches.get a = some c → c < s.heap.length
  cache_inj : ∀ a b c, s.mqtt_caches.get a = some c → s.mqtt_caches.get b = some c → a = b
  will_ok : ∀ (client : Nat) (r : SessionRec), s.sessions[client]? = some r →
    r.will = ⟨connectionTopic r.address, [0], true⟩
  hist_ok : ∀ p ∈ s.pending, (offlineThenEnd p.session p.v).Sublist s.log

/-! ## Properties of property lists -/

namespace Obj

variable {κ ν : Type} [DecidableEq κ]

@[simp] theorem get_empty (k : κ) : (Obj.empty : Obj κ ν).get k = none := rfl

theorem lookup_assign_self (k : κ) (v : ν) (l : List (κ × ν)) :
    lookup k (assign k v l) = some v := by
  induction l with
  | nil => simp [assign, lookup]
  | cons e rest ih =>
    obtain ⟨k', v'⟩ := e
    by_cases h : k' = k
    · simp [assign, lookup, h]
    · simp [assign, lookup, h, ih]

theorem lookup_assign_ne {k k' : κ} (v : ν) (l : List (κ × ν)) (h : k' ≠ k) :
    lookup k' (assign k v l) = lookup k' l := by
  induction l with
  | nil => simp [assign, lookup, Ne.symm h]
  | cons e rest ih =>
    obtain ⟨k₀, v₀⟩ := e
    by_cases h₀ : k₀ = k
    · subst h₀
      simp [assign, lookup, Ne.symm h]
    · by_cases h₁ : k₀ = k'
      · subst h₁
        simp [assign, lookup, h₀]
      · simp [assign, lookup, h₀, h₁, ih]

@[simp] theorem get_set_self (o : Obj κ ν) (k : κ) (v : ν) : (o.set k v).get k = some v :=
  lookup_assign_self k v o.entries

theorem get_set_ne (o : Obj κ ν) {k k' : κ} (v : ν) (h : k' ≠ k) :
    (o.set k v).get k' = o.get k' :=
  lookup_assign_ne v o.entries h

theorem get_set (o : Obj κ ν) (k k' : κ) (v : ν) :
    (o.set k v).get k' = if k' = k then some v else o.get k' := by
  by_cases h : k' = k
  · subst h; simp
  · simp [h, get_set_ne o v h]

theorem lookup_remove_self (k : κ) (l : List (κ × ν)) : lookup k (remove k l) = none := by
  induction l with
  | nil => simp [remove, lookup]
  | cons e rest ih =>
    obtain ⟨k₀, v₀⟩ := e
    by_cases h₀ : k₀ = k
    · simp [remove, h₀, ih]
    · simp [remove, h₀, lookup, ih]

theorem lookup_remove_ne {k k' : κ} (l : List (κ × ν)) (h : k' ≠ k) :
    lookup k' (remove k l) = lookup k' l := by
  induction l with
  | nil => simp [remove, lookup]
  | cons e rest ih =>
    obtain ⟨k₀, v₀⟩ := e
    by_cases h₀ : k₀ = k
    · subst h₀
      simp [remove, lookup, Ne.symm h, ih]
    · by_cases h₁ : k₀ = k'
      · subst h₁
        simp [remove, lookup, h₀]
      · simp [remove, lookup, h₀, h₁, ih]

@[simp] theorem get_del_self (o : Obj κ ν) (k : κ) : (o.del k).get k = none :=
  lookup_remove_self k o.entries

theorem get_del_ne (o : Obj κ ν) {k k' : κ} (h : k' ≠ k) : (o.del k).get k' = o.get k' :=
  lookup_remove_ne o.entries h

theorem get_del (o : Obj κ ν) (k k' : κ) :
    (o.del k).get k' = if k' = k then none else o.get k' := by
  by_cases h : k' = k
  · subst h; simp
  · simp [h, get_del_ne o h]

end Obj

/-! ## Handler-level properties -/

/-- C5 (as the source behaves): a detach for a link without a directory entry
makes the disconnect handler fail with a `TypeError` before it does anything:
the state is unchanged and no publish and no session end is issued. -/
theorem disconnect_unknown_link_throws (s : State) (device : Link)
    (h : s.mqtt_directory.get device = none) :
    onSkirnirDisconnect s device = ⟨s, [], some typeError⟩ := by
  simp [onSkirnirDisconnect, h]

theorem disconnect_unknown_link_throws_witness :
    init.mqtt_directory.get "/dev/ttyUSB0" = none ∧
      onSkirnirDisconnect init "/dev/ttyUSB0" = ⟨init, [], some typeError⟩ :=
  ⟨by decide, disconnect_unknown_link_throws init "/dev/ttyUSB0" (by decide)⟩

/-- C5 as stated fails: at program start no link has a directory entry, and
the disconnect handler run for `/dev/ttyUSB0` ends in an uncaught error. -/
theorem disconnect_unknown_link_not_noop :
    init.mqtt_directory.get "/dev/ttyUSB0" = none ∧
      (onSkirnirDisconnect init "/dev/ttyUSB0").error ≠ none := by
  decide

/-- C6: each kind of undecodable input is ignored on its own.  (1) A serial
frame that `Packet.fromBuffer` rejects leaves the whole state unchanged, issues
no call at all and raises no error.  (2) A broker message from which
`Packet.fromMqtt(topic, message).toBuffer()` gives no buffer does the same, in
`onmessage` and in the listener of any client. -/
theorem undecodable_input_ignored {P : Type} (codec : Codec P) (s : State) :
    (∀ device data, codec.fromBuffer data = none →
      onSkirnirMessage codec s device data = ⟨s, [], none⟩ ∧
      step codec s (.skirnirMessage device data) = s) ∧
      (∀ session topic message, codec.toBuffer (codec.fromMqtt topic message) = none →
        onmessage codec s topic message = ⟨s, [], none⟩ ∧
        onSessionMessage codec s session topic message = ⟨s, [], none⟩ ∧
        step codec s (.mqttMessage session topic message) = s) := by
  refine ⟨?_, ?_⟩
  · intro device data hframe
    have h1 : onSkirnirMessage codec s device data = ⟨s, [], none⟩ := by
      simp [onSkirnirMessage, hframe]
    exact ⟨h1, by simp [step, handle, h1]⟩
  · intro session topic message hmsg
    have h2 : onmessage codec s topic message = ⟨s, [], none⟩ := by
      simp [onmessage, hmsg]
    have h3 : onSessionMessage codec s session topic message = ⟨s, [], none⟩ := by
      unfold onSessionMessage
      split <;> simp [h2]
    exact ⟨h2, h3, by simp [step, handle, h3]⟩

theorem undecodable_input_ignored_witness :
    (demoCodec.fromBuffer [1, 2] = none ∧
      onSkirnirMessage demoCodec demoState demoLink [1, 2] = ⟨demoState, [], none⟩ ∧
      step demoCodec demoState (.skirnirMessage demoLink [1, 2]) = demoState) ∧
      (demoCodec.toBuffer (demoCodec.fromMqtt "Se/7/pin/1/r" []) = none ∧
        onmessage demoCodec demoState "Se/7/pin/1/r" [] = ⟨demoState, [], none⟩ ∧
        onSessionMessage demoCodec demoState 0 "Se/7/pin/1/r" [] = ⟨demoState, [], none⟩ ∧
        step demoCodec demoState (.mqttMessage 0 "Se/7/pin/1/r" []) = demoState) :=
  ⟨⟨by decide,
      (undecodable_input_ignored demoCodec demoState).1 demoLink [1, 2] (by decide)⟩,
    ⟨by decide,
      (undecodable_input_ignored demoCodec demoState).2 0 "Se/7/pin/1/r" [] (by decide)⟩⟩

/-- C9: the connect handler for link `device` sets `mqtt_directory[device]` to
the empty array, sends exactly one frame, the buffer of
`new Packet(0xFFFFFFFF, 'discovery')`, on that link, and changes nothing else:
`mqtts`, `mqtt_caches` and the directory entries of other links are as before. -/
theorem connect_handler_effect {P : Type} (codec : Codec P) (s : State) (device : Link) :
    (onSkirnirConnect codec s device).error = none ∧
      (onSkirnirConnect codec s device).effects =
        [Effect.send device (codec.toBuffer (codec.construct 4294967295 "discovery"))] ∧
      (onSkirnirConnect codec s device).state =
        { s with mqtt_directory := s.mqtt_directory.set device [] } ∧
      (onSkirnirConnect codec s device).state.mqtt_directory.get device = some [] ∧
      (∀ other, other ≠ device →
        (onSkirnirConnect codec s device).state.mqtt_directory.get other =
          s.mqtt_directory.get other) ∧
      (onSkirnirConnect codec s device).state.mqtts = s.mqtts ∧
      (onSkirnirConnect codec s device).state.mqtt_caches = s.mqtt_caches := by
  refine ⟨rfl, rfl, rfl, ?_, ?_, rfl, rfl⟩
  · simp [onSkirnirConnect]
  · intro other h
    simp [onSkirnirConnect, Obj.get_set_ne _ _ h]

/-! ### The cache statements of the message handler -/

@[simp] theorem ensureCache_mqtts (s : State) (a : Address) :
    (ensureCache s a).1.mqtts = s.mqtts := by
  unfold ensureCache; split <;> rfl

@[simp] theorem ensureCache_directory (s : State) (a : Address) :
    (ensureCache s a).1.mqtt_directory = s.mqtt_directory := by
  unfold ensureCache; split <;> rfl

@[simp] theorem ensureCache_sessions (s : State) (a : Address) :
    (ensureCache s a).1.sessions = s.sessions := by
  unfold ensureCache; split <;> rfl

@[simp] theorem ensureCache_pending (s : State) (a : Address) :
    (ensureCache s a).1.pending = s.pending := by
  unfold ensureCache; split <;> rfl

@[simp] theorem ensureCache_removed (s : State) (a : Address) :
    (ensureCache s a).1.removed = s.removed := by
  unfold ensureCache; split <;> rfl

@[simp] theorem ensureCache_closed (s : State) (a : Address) :
    (ensureCache s a).1.closed = s.closed := by
  unfold ensureCache; split <;> rfl

@[simp] theorem ensureCache_log (s : State) (a : Address) :
    (ensureCache s a).1.log = s.log := by
  unfold ensureCache; split <;> rfl

@[simp] theorem ensureCache_get_self (s : State) (a : Address) :
    (ensureCache s a).1.mqtt_caches.get a = some (ensureCache s a).2 := by
  unfold ensureCache
  split
  · simp
  · next c h => simpa using h

theorem ensureCache_get_ne (s : State) {a b : Address} (h : b ≠ a) :
    (ensureCache s a).1.mqtt_caches.get b = s.mqtt_caches.get b := by
  unfold ensureCache
  split
  · simp [Obj.get_set_ne _ _ h]
  · rfl

theorem ensureCache_of_some (s : State) {a : Address} {c : Nat}
    (h : s.mqtt_caches.get a = some c) : ensureCache s a = (s, c) := by
  simp [ensureCache, h]

theorem ensureCache_of_none (s : State) {a : Address} (h : s.mqtt_caches.get a = none) :
    ensureCache s a =
      ({ s with heap := s.heap ++ [Obj.empty],
                mqtt_caches := s.mqtt_caches.set a s.heap.length }, s.heap.length) := by
  simp [ensureCache, h]

/-- C7: a decodable frame for address `A` on a link with a directory entry.
When `mqtts` has no entry for `A`, the handler calls `mqtt.connect` once (the
only call it issues, so the frame is not published directly), stores the new
client in `mqtts[A]` and appends `A` to the link's array; otherwise it issues
exactly one publish of the frame's topic and message with retain and qos 0 on
`mqtts[A]` and leaves `mqtts`, `mqtt_directory` and the clients unchanged.  In
both cases the handler completes without an error. -/
theorem frame_handler_cases {P : Type} (codec : Codec P) (s : State) (device : Link)
    (data : Bytes) (packet : P) (arr : List Address)
    (hdec : codec.fromBuffer data = some packet)
    (hdir : s.mqtt_directory.get device = some arr) :
    (onSkirnirMessage codec s device data).error = none ∧
      (s.mqtts.get (codec.address packet) = none →
        (∃ cache,
          (onSkirnirMessage codec s device data).state.mqtt_caches.get (codec.address packet) =
            some cache ∧
          (onSkirnirMessage codec s device data).state.sessions =
            s.sessions ++
              [⟨codec.address packet, cache, ⟨connectionTopic (codec.address packet), [0], true⟩⟩]) ∧
        (onSkirnirMessage codec s device data).state.mqtts =
          s.mqtts.set (codec.address packet) s.sessions.length ∧
        (onSkirnirMessage codec s device data).state.mqtt_directory =
          s.mqtt_directory.set device (arr ++ [codec.address packet]) ∧
        (onSkirnirMessage codec s device data).effects =
          [Effect.connect s.sessions.length "mqtt://localhost:1883" false
            ⟨connectionTopic (codec.address packet), [0], true⟩]) ∧
      (∀ client, s.mqtts.get (codec.address packet) = some client →
        (onSkirnirMessage codec s device data).effects =
          [Effect.publish client (codec.toMqtt packet).topic (codec.toMqtt packet).message
            true 0] ∧
        (onSkirnirMessage codec s device data).state.mqtts = s.mqtts ∧
        (onSkirnirMessage codec s device data).state.mqtt_directory = s.mqtt_directory ∧
        (onSkirnirMessage codec s device data).state.sessions = s.sessions) := by
  cases hm : s.mqtts.get (codec.address packet) with
  | none =>
    simp [onSkirnirMessage, hdec, cacheStore, start_mqtt, hm, hdir]
  | some client =>
    simp [onSkirnirMessage, hdec, cacheStore, hm]

theorem frame_handler_cases_witness :
    demoCodec.fromBuffer [7, 1, 22] = some ⟨7, 1, [22], true⟩ ∧
      (step demoCodec init (.skirnirConnect "/dev/ttyUSB0")).mqtt_directory.get "/dev/ttyUSB0" =
        some [] ∧
      (onSkirnirMessage demoCodec (step demoCodec init (.skirnirConnect "/dev/ttyUSB0"))
          "/dev/ttyUSB0" [7, 1, 22]).effects =
        [Effect.connect 0 "mqtt://localhost:1883" false ⟨"Se/7/connection", [0], true⟩] := by
  have h := frame_handler_cases demoCodec (step demoCodec init (.skirnirConnect "/dev/ttyUSB0"))
    "/dev/ttyUSB0" [7, 1, 22] ⟨7, 1, [22], true⟩ [] (by decide) (by decide)
  exact ⟨by decide, by decide, (h.2.1 (by decide)).2.2.2⟩

/-! ## The consistency invariant -/

theorem inv_init : Inv init where
  sess_ok := by intro v c h; simp [init] at h
  pend_ok := by intro p hp; simp [init] at hp
  pend_nodup := by simp [init]
  dir_ok := by intro d arr h; simp [init] at h
  dir_inj := by intro d₁ d₂ a₁ a₂ v h; simp [init] at h
  live_ok := by intro c r h; simp [init] at h
  rem_eq := rfl
  closed_lt := by intro c h; simp [init] at h
  cache_lt := by intro a c h; simp [init] at h
  cache_inj := by intro a b c h; simp [init] at h
  will_ok := by intro c r h; simp [init] at h
  hist_ok := by intro p hp; simp [init] at hp

theorem inv_skirnirConnect {P : Type} (codec : Codec P) {s : State} (h : Inv s)
    (device : Link) : Inv (step codec s (.skirnirConnect device)) := by
  have hs : step codec s (.skirnirConnect device) =
      { s with mqtt_directory := s.mqtt_directory.set device [],
               log := s.log ++ [Effect.send device
                 (codec.toBuffer (codec.construct 4294967295 "discovery"))] } := rfl
  rw [hs]
  exact
    { sess_ok := h.sess_ok
      pend_ok := h.pend_ok
      pend_nodup := h.pend_nodup
      dir_ok := by
        intro d arr hd
        simp only [Obj.get_set] at hd
        split at hd
        · cases hd; simp
        · exact h.dir_ok d arr hd
      dir_inj := by
        intro d₁ d₂ a₁ a₂ v h₁ h₂ m₁ m₂
        simp only [Obj.get_set] at h₁ h₂
        split at h₁
        · cases h₁; simp at m₁
        · split at h₂
          · cases h₂; simp at m₂
          · exact h.dir_inj d₁ d₂ a₁ a₂ v h₁ h₂ m₁ m₂
      live_ok := h.live_ok
      rem_eq := h.rem_eq
      closed_lt := h.closed_lt
      cache_lt := h.cache_lt
      cache_inj := h.cache_inj
      will_ok := h.will_ok
      hist_ok := fun p hp => (h.hist_ok p hp).trans (List.sublist_append_left _ _) }

theorem inv_log_append {s : State} (h : Inv s) (l : List Effect) :
    Inv { s with log := s.log ++ l } :=
  { sess_ok := h.sess_ok
    pend_ok := h.pend_ok
    pend_nodup := h.pend_nodup
    dir_ok := h.dir_ok
    dir_inj := h.dir_inj
    live_ok := h.live_ok
    rem_eq := h.rem_eq
    closed_lt := h.closed_lt
    cache_lt := h.cache_lt
    cache_inj := h.cache_inj
    will_ok := h.will_ok
    hist_ok := fun p hp => (h.hist_ok p hp).trans (List.sublist_append_left _ _) }

theorem onSessionConnect_state (s : State) (session : Nat) :
    (onSessionConnect s session).state = s := by
  unfold onSessionConnect
  split
  · rfl
  · split <;> rfl

theorem onSessionMessage_state {P : Type} (codec : Codec P) (s : State) (session : Nat)
    (topic : Topic) (message : Bytes) :
    (onSessionMessage codec s session topic message).state = s := by
  unfold onSessionMessage onmessage
  split
  · split <;> rfl
  · rfl

theorem inv_mqttConnect {P : Type} (codec : Codec P) {s : State} (h : Inv s)
    (session : Nat) : Inv (step codec s (.mqttConnect session)) := by
  have hs : step codec s (.mqttConnect session) =
      { s with log := s.log ++ (onSessionConnect s session).effects } := by
    simp [step, handle, onSessionConnect_state]
  rw [hs]
  exact inv_log_append h _

theorem inv_mqttMessage {P : Type} (codec : Codec P) {s : State} (h : Inv s)
    (session : Nat) (topic : Topic) (message : Bytes) :
    Inv (step codec s (.mqttMessage session topic message)) := by
  have hs : step codec s (.mqttMessage session topic message) =
      { s with log := s.log ++ (onSessionMessage codec s session topic message).effects } := by
    simp [step, handle, onSessionMessage_state]
  rw [hs]
  exact inv_log_append h _

theorem inv_cache {s : State} (h : Inv s) (a : Address) (topic : Topic) (message : Bytes) :
    Inv (cacheStore (ensureCache s a).1 (ensureCache s a).2 topic message) := by
  cases hc : s.mqtt_caches.get a with
  | some c =>
    rw [ensureCache_of_some s hc]
    exact
      { sess_ok := h.sess_ok
        pend_ok := h.pend_ok
        pend_nodup := h.pend_nodup
        dir_ok := h.dir_ok
        dir_inj := h.dir_inj
        live_ok := h.live_ok
        rem_eq := h.rem_eq
        closed_lt := h.closed_lt
        cache_lt := by
          intro a' c' h'
          simpa [cacheStore] using h.cache_lt a' c' h'
        cache_inj := h.cache_inj
        will_ok := h.will_ok
        hist_ok := h.hist_ok }
  | none =>
    rw [ensureCache_of_none s hc]
    exact
      { sess_ok := by
          intro v client hv
          obtain ⟨r, h₁, h₂, h₃, h₄⟩ := h.sess_ok v client hv
          refine ⟨r, h₁, h₂, ?_, h₄⟩
          have hne : v ≠ a := by
            rintro rfl
            rw [hc] at h₃
            cases h₃
          simpa [cacheStore, Obj.get_set_ne _ _ hne] using h₃
        pend_ok := h.pend_ok
        pend_nodup := h.pend_nodup
        dir_ok := h.dir_ok
        dir_inj := h.dir_inj
        live_ok := h.live_ok
        rem_eq := h.rem_eq
        closed_lt := h.closed_lt
        cache_lt := by
          intro a' c' h'
          simp only [cacheStore, Obj.get_set] at h'
          simp only [cacheStore, List.length_modify, List.length_append, List.length_singleton]
          split at h'
          · cases h'; omega
          · have := h.cache_lt a' c' h'; omega
        cache_inj := by
          intro a₁ a₂ c' h₁ h₂
          simp only [cacheStore, Obj.get_set] at h₁ h₂
          split at h₁
          · split at h₂
            · simp_all
            · cases h₁
              have := h.cache_lt a₂ _ h₂
              omega
          · split at h₂
            · cases h₂
              have := h.cache_lt a₁ _ h₁
              omega
            · exact h.cache_inj a₁ a₂ c' h₁ h₂
        will_ok := h.will_ok
        hist_ok := h.hist_ok }

theorem inv_start {s : State} (h : Inv s) {a : Address} {c : Nat}
    (hm : s.mqtts.get a = none) (hc : s.mqtt_caches.get a = some c) :
    Inv { s with sessions := s.sessions ++ [⟨a, c, ⟨connectionTopic a, [0], true⟩⟩],
                 mqtts := s.mqtts.set a s.sessions.length } :=
  { sess_ok := by
      intro v client hv
      simp only [Obj.get_set] at hv
      split at hv
      · next hva =>
        subst hva
        cases hv
        refine ⟨⟨v, c, ⟨connectionTopic v, [0], true⟩⟩, by simp, rfl, hc, ?_⟩
        intro hcl
        exact absurd (h.closed_lt _ hcl) (by simp)
      · obtain ⟨r, h₁, h₂, h₃, h₄⟩ := h.sess_ok v client hv
        refine ⟨r, ?_, h₂, h₃, h₄⟩
        have hlt : client < s.sessions.length := by
          by_contra hge
          rw [List.getElem?_eq_none (by omega)] at h₁
          cases h₁
        simpa [List.getElem?_append_left hlt] using h₁
    pend_ok := by
      intro p hp
      have hp' := h.pend_ok p hp
      have hne : p.v ≠ a := by
        intro he
        rw [he, hm] at hp'
        cases hp'
      simpa [Obj.get_set_ne _ _ hne] using hp'
    pend_nodup := h.pend_nodup
    dir_ok := by
      intro d arr hd
      obtain ⟨h₁, h₂⟩ := h.dir_ok d arr hd
      refine ⟨h₁, fun v hv => ⟨?_, (h₂ v hv).2⟩⟩
      simp only [Obj.get_set]
      split
      · simp
      · exact (h₂ v hv).1
    dir_inj := h.dir_inj
    live_ok := by
      intro client r hr hcl
      by_cases hlt : client < s.sessions.length
      · have hr' : s.sessions[client]? = some r := by
          simpa [List.getElem?_append_left hlt] using hr
        have hg := h.live_ok client r hr' hcl
        have hne : r.address ≠ a := by
          intro he
          rw [he, hm] at hg
          cases hg
        simpa [Obj.get_set_ne _ _ hne] using hg
      · by_cases heq : client = s.sessions.length
        · subst heq
          simp at hr
          subst hr
          simp
        · rw [List.getElem?_eq_none (by simp; omega)] at hr
          cases hr
    rem_eq := h.rem_eq
    closed_lt := by
      intro client hcl
      have := h.closed_lt client hcl
      simp
      omega
    cache_lt := h.cache_lt
    cache_inj := h.cache_inj
    will_ok := by
      intro client r hr
      by_cases hlt : client < s.sessions.length
      · exact h.will_ok client r (by simpa [List.getElem?_append_left hlt] using hr)
      · by_cases heq : client = s.sessions.length
        · subst heq
          simp at hr
          subst hr
          rfl
        · rw [List.getElem?_eq_none (by simp; omega)] at hr
          cases hr
    hist_ok := h.hist_ok }

theorem inv_push {s : State} (h : Inv s) (device : Link) (arr : List Address) (a : Address)
    (hd : s.mqtt_directory.get device = some arr) (hm : s.mqtts.get a ≠ none)
    (hfree : ∀ d arr', s.mqtt_directory.get d = some arr' → a ∉ arr')
    (hpend : ∀ p ∈ s.pending, p.v ≠ a) :
    Inv { s with mqtt_directory := s.mqtt_directory.set device (arr ++ [a]) } :=
  { sess_ok := h.sess_ok
    pend_ok := h.pend_ok
    pend_nodup := h.pend_nodup
    dir_ok := by
      intro d arr' hd'
      simp only [Obj.get_set] at hd'
      split at hd'
      · cases hd'
        obtain ⟨h₁, h₂⟩ := h.dir_ok device arr hd
        refine ⟨?_, ?_⟩
        · rw [List.nodup_append]
          refine ⟨h₁, List.nodup_singleton a, ?_⟩
          intro x hx hx'
          simp at hx'
          subst hx'
          exact hfree device arr hd hx
        · intro v hv
          simp only [List.mem_append, List.mem_singleton] at hv
          rcases hv with hv | rfl
          · exact h₂ v hv
          · exact ⟨hm, hpend⟩
      · exact h.dir_ok d arr' hd'
    dir_inj := by
      intro d₁ d₂ a₁ a₂ v h₁ h₂ m₁ m₂
      by_contra hne
      simp only [Obj.get_set] at h₁ h₂
      split at h₁
      · next e₁ =>
        cases h₁
        split at h₂
        · next e₂ => exact hne (e₁.trans e₂.symm)
        · simp only [List.mem_append, List.mem_singleton] at m₁
          rcases m₁ with m₁ | rfl
          · exact hne (h.dir_inj d₁ d₂ arr a₂ v (e₁ ▸ hd) h₂ m₁ m₂)
          · exact hfree d₂ a₂ h₂ m₂
      · split at h₂
        · next e₂ =>
          cases h₂
          simp only [List.mem_append, List.mem_singleton] at m₂
          rcases m₂ with m₂ | rfl
          · exact hne (h.dir_inj d₁ d₂ a₁ arr v h₁ (e₂ ▸ hd) m₁ m₂)
          · exact hfree d₁ a₁ h₁ m₁
        · exact hne (h.dir_inj d₁ d₂ a₁ a₂ v h₁ h₂ m₁ m₂)
    live_ok := h.live_ok
    rem_eq := h.rem_eq
    closed_lt := h.closed_lt
    cache_lt := h.cache_lt
    cache_inj := h.cache_inj
    will_ok := h.will_ok
    hist_ok := h.hist_ok }

theorem inv_skirnirMessage {P : Type} (codec : Codec P) {s : State} (h : Inv s)
    (device : Link) (data : Bytes) : Inv (step codec s (.skirnirMessage device data)) := by
  simp only [step, handle, onSkirnirMessage]
  cases hdec : codec.fromBuffer data with
  | none => exact inv_log_append h _
  | some packet =>
    simp only
    have h2 := inv_cache h (codec.address packet) (codec.toMqtt packet).topic
      (codec.toMqtt packet).message
    generalize hs2 : cacheStore (ensureCache s (codec.address packet)).1
      (ensureCache s (codec.address packet)).2 (codec.toMqtt packet).topic
      (codec.toMqtt packet).message = s2 at h2
    have hcache : s2.mqtt_caches.get (codec.address packet) =
        some (ensureCache s (codec.address packet)).2 := by
      rw [← hs2]; simp [cacheStore]
    generalize (ensureCache s (codec.address packet)).2 = c at hcache
    cases hm : s2.mqtts.get (codec.address packet) with
    | some client => exact inv_log_append h2 _
    | none =>
      simp only [start_mqtt]
      have h4 := inv_start h2 hm hcache
      cases hd : s2.mqtt_directory.get device with
      | none => exact inv_log_append h4 _
      | some arr =>
        simp only
        have hfree : ∀ d arr', s2.mqtt_directory.get d = some arr' →
            codec.address packet ∉ arr' := by
          intro d arr' hd' hmem
          exact ((h2.dir_ok d arr' hd').2 _ hmem).1 hm
        have hpend : ∀ p ∈ s2.pending, p.v ≠ codec.address packet := by
          intro p hp he
          have := h2.pend_ok p hp
          rw [he, hm] at this
          cases this
        have h5 := inv_push h4 device arr (codec.address packet) hd (by simp) hfree hpend
        exact inv_log_append h5 _

/-! ### The disconnect handler -/

theorem closesOf_cons_some (s : State) (v : Address) (rest : List Address) (client : Nat)
    (h : s.mqtts.get v = some client) :
    closesOf s (v :: rest) = ⟨client, v⟩ :: closesOf s rest := by
  simp [closesOf, List.filterMap_cons, h]

theorem mem_closesOf {s : State} {arr : List Address} {p : PendingClose} :
    p ∈ closesOf s arr ↔ p.v ∈ arr ∧ s.mqtts.get p.v = some p.session := by
  simp only [closesOf, List.mem_filterMap, Option.map_eq_some']
  constructor
  · rintro ⟨v, hv, c, hc, rfl⟩
    exact ⟨hv, hc⟩
  · rintro ⟨hv, hc⟩
    exact ⟨p.v, hv, p.session, hc, rfl⟩

theorem closesOf_map_sublist (s : State) (arr : List Address) :
    ((closesOf s arr).map (fun p => p.v)).Sublist arr := by
  induction arr with
  | nil => simp [closesOf]
  | cons v rest ih =>
    cases hv : s.mqtts.get v with
    | none =>
      have : closesOf s (v :: rest) = closesOf s rest := by
        simp [closesOf, List.filterMap_cons, hv]
      rw [this]
      exact ih.trans (List.sublist_cons_self v rest)
    | some c =>
      rw [closesOf_cons_some s v rest c hv]
      simpa using ih

theorem offlineThenEnd_sublist_detachEffects {s : State} {arr : List Address}
    {p : PendingClose} (hp : p ∈ closesOf s arr) :
    (offlineThenEnd p.session p.v).Sublist (detachEffects s arr) := by
  unfold detachEffects
  generalize closesOf s arr = l at hp
  induction l with
  | nil => cases hp
  | cons q rest ih =>
    rw [List.flatMap_cons]
    rcases List.mem_cons.mp hp with rfl | hmem
    · exact List.sublist_append_left _ _
    · exact (ih hmem).trans (List.sublist_append_right _ _)

theorem disconnectLoop_ok (s : State) (arr : List Address)
    (hall : ∀ v ∈ arr, s.mqtts.get v ≠ none) :
    disconnectLoop s arr =
      ⟨{ s with pending := s.pending ++ closesOf s arr }, detachEffects s arr, none⟩ := by
  induction arr generalizing s with
  | nil => simp [disconnectLoop, closesOf, detachEffects]
  | cons v rest ih =>
    have hv := hall v (List.mem_cons_self v rest)
    cases hc : s.mqtts.get v with
    | none => exact absurd hc hv
    | some client =>
      have hrest : ∀ w ∈ rest,
          ({ s with pending := s.pending ++ [⟨client, v⟩] } : State).mqtts.get w ≠ none :=
        fun w hw => hall w (List.mem_cons_of_mem v hw)
      have hclose : closesOf { s with pending := s.pending ++ [⟨client, v⟩] } rest =
          closesOf s rest := rfl
      have hdet : detachEffects { s with pending := s.pending ++ [⟨client, v⟩] } rest =
          detachEffects s rest := rfl
      simp only [disconnectLoop, disconnectEach, hc, ih _ hrest, hclose, hdet]
      simp [closesOf_cons_some s v rest client hc, detachEffects, offlineThenEnd]

theorem onSkirnirDisconnect_ok {s : State} (h : Inv s) {device : Link} {arr : List Address}
    (hd : s.mqtt_directory.get device = some arr) :
    onSkirnirDisconnect s device =
      ⟨{ s with pending := s.pending ++ closesOf s arr,
                mqtt_directory := s.mqtt_directory.del device },
       detachEffects s arr, none⟩ := by
  have hall : ∀ v ∈ arr, s.mqtts.get v ≠ none := fun v hv => ((h.dir_ok device arr hd).2 v hv).1
  simp [onSkirnirDisconnect, hd, disconnectLoop_ok s arr hall]

theorem inv_skirnirDisconnect {P : Type} (codec : Codec P) {s : State} (h : Inv s)
    (device : Link) : Inv (step codec s (.skirnirDisconnect device)) := by
  cases hd : s.mqtt_directory.get device with
  | none =>
    have hs : step codec s (.skirnirDisconnect device) = { s with log := s.log ++ [] } := by
      simp [step, handle, onSkirnirDisconnect, hd]
    rw [hs]
    exact inv_log_append h _
  | some arr =>
    have hs : step codec s (.skirnirDisconnect device) =
        { s with pending := s.pending ++ closesOf s arr,
                 mqtt_directory := s.mqtt_directory.del device,
                 log := s.log ++ detachEffects s arr } := by
      simp [step, handle, onSkirnirDisconnect_ok h hd]
    rw [hs]
    obtain ⟨hnd, harr⟩ := h.dir_ok device arr hd
    exact
      { sess_ok := h.sess_ok
        pend_ok := by
          intro p hp
          rcases List.mem_append.mp hp with hp | hp
          · exact h.pend_ok p hp
          · exact (mem_closesOf.mp hp).2
        pend_nodup := by
          show ((s.pending ++ closesOf s arr).map (fun p => p.v)).Nodup
          rw [List.map_append, List.nodup_append]
          refine ⟨h.pend_nodup, (closesOf_map_sublist s arr).nodup hnd, ?_⟩
          intro x hx hx'
          obtain ⟨p, hp, rfl⟩ := List.mem_map.mp hx
          exact (harr p.v ((closesOf_map_sublist s arr).subset hx')).2 p hp rfl
        dir_ok := by
          intro d arr' hd'
          have hne : d ≠ device := by
            rintro rfl
            simp at hd'
          have hd'' : s.mqtt_directory.get d = some arr' := by
            simpa [Obj.get_del_ne _ hne] using hd'
          obtain ⟨h₁, h₂⟩ := h.dir_ok d arr' hd''
          refine ⟨h₁, fun v hv => ⟨(h₂ v hv).1, ?_⟩⟩
          intro p hp
          rcases List.mem_append.mp hp with hp | hp
          · exact (h₂ v hv).2 p hp
          · intro he
            have hv' : v ∈ arr := he ▸ (mem_closesOf.mp hp).1
            exact hne (h.dir_inj d device arr' arr v hd'' hd hv hv')
        dir_inj := by
          intro d₁ d₂ a₁ a₂ v h₁ h₂ m₁ m₂
          have hne₁ : d₁ ≠ device := by
            rintro rfl
            simp at h₁
          have hne₂ : d₂ ≠ device := by
            rintro rfl
            simp at h₂
          exact h.dir_inj d₁ d₂ a₁ a₂ v (by simpa [Obj.get_del_ne _ hne₁] using h₁)
            (by simpa [Obj.get_del_ne _ hne₂] using h₂) m₁ m₂
        live_ok := h.live_ok
        rem_eq := h.rem_eq
        closed_lt := h.closed_lt
        cache_lt := h.cache_lt
        cache_inj := h.cache_inj
        will_ok := h.will_ok
        hist_ok := by
          intro p hp
          rcases List.mem_append.mp hp with hp | hp
          · exact (h.hist_ok p hp).trans (List.sublist_append_left _ _)
          · exact (offlineThenEnd_sublist_detachEffects hp).trans
              (List.sublist_append_right _ _) }

/-! ### The end callback -/

theorem onEndCallback_none {s : State} {session : Nat}
    (hf : s.pending.find? (fun p => decide (p.session = session)) = none) :
    onEndCallback s session = ⟨s, [], none⟩ := by
  simp [onEndCallback, hf]

theorem onEndCallback_some {s : State} {session : Nat} {p : PendingClose}
    (hf : s.pending.find? (fun p => decide (p.session = session)) = some p)
    (hm : s.mqtts.get p.v = some p.session) :
    onEndCallback s session =
      ⟨{ s with pending := s.pending.erase p,
                closed := p.session :: s.closed,
                removed := p.session :: s.removed,
                mqtts := s.mqtts.del p.v,
                mqtt_caches := s.mqtt_caches.del p.v },
       [Effect.removeAllListeners p.session], none⟩ := by
  simp [onEndCallback, hf, endCallbackBody, hm]

theorem find_pending {s : State} {session : Nat} {p : PendingClose}
    (hf : s.pending.find? (fun p => decide (p.session = session)) = some p) :
    p ∈ s.pending ∧ p.session = session := by
  refine ⟨List.mem_of_find?_eq_some hf, ?_⟩
  simpa using List.find?_some hf

theorem pending_erase_ne {s : State} (h : Inv s) {p q : PendingClose}
    (hp : p ∈ s.pending) (hq : q ∈ s.pending.erase p) : q ∈ s.pending ∧ q.v ≠ p.v := by
  have hq' : q ∈ s.pending := List.mem_of_mem_erase hq
  refine ⟨hq', ?_⟩
  intro he
  have heq : q = p := List.inj_on_of_nodup_map h.pend_nodup hq' hp he
  have hnd : s.pending.Nodup := List.Nodup.of_map _ h.pend_nodup
  exact ((List.Nodup.mem_erase_iff hnd).mp hq).1 heq

theorem inv_endCallback {P : Type} (codec : Codec P) {s : State} (h : Inv s)
    (session : Nat) : Inv (step codec s (.endCallback session)) := by
  cases hf : s.pending.find? (fun p => decide (p.session = session)) with
  | none =>
    have hs : step codec s (.endCallback session) = { s with log := s.log ++ [] } := by
      simp [step, handle, onEndCallback_none hf]
    rw [hs]
    exact inv_log_append h _
  | some p =>
    obtain ⟨hp, _⟩ := find_pending hf
    have hm := h.pend_ok p hp
    have hs : step codec s (.endCallback session) =
        { s with pending := s.pending.erase p,
                 closed := p.session :: s.closed,
                 removed := p.session :: s.removed,
                 mqtts := s.mqtts.del p.v,
                 mqtt_caches := s.mqtt_caches.del p.v,
                 log := s.log ++ [Effect.removeAllListeners p.session] } := by
      simp [step, handle, onEndCallback_some hf hm]
    rw [hs]
    obtain ⟨rp, hrp, hrpa, -, -⟩ := h.sess_ok p.v p.session hm
    exact
      { sess_ok := by
          intro v client hv
          have hne : v ≠ p.v := by
            rintro rfl
            simp at hv
          have hv' : s.mqtts.get v = some client := by
            simpa [Obj.get_del_ne _ hne] using hv
          obtain ⟨r, h₁, h₂, h₃, h₄⟩ := h.sess_ok v client hv'
          refine ⟨r, h₁, h₂, by simpa [Obj.get_del_ne _ hne] using h₃, ?_⟩
          intro hcl
          rcases List.mem_cons.mp hcl with he | hcl
          · subst he
            rw [hrp] at h₁
            cases h₁
            exact hne (h₂.symm.trans hrpa)
          · exact h₄ hcl
        pend_ok := by
          intro q hq
          obtain ⟨hq', hne⟩ := pending_erase_ne h hp hq
          simpa [Obj.get_del_ne _ hne] using h.pend_ok q hq'
        pend_nodup := ((List.erase_sublist p s.pending).map _).nodup h.pend_nodup
        dir_ok := by
          intro d arr hd
          obtain ⟨h₁, h₂⟩ := h.dir_ok d arr hd
          refine ⟨h₁, fun v hv => ⟨?_, fun q hq => (h₂ v hv).2 q (List.mem_of_mem_erase hq)⟩⟩
          have hne : v ≠ p.v := fun he => (h₂ v hv).2 p hp he.symm
          simpa [Obj.get_del_ne _ hne] using (h₂ v hv).1
        dir_inj := h.dir_inj
        live_ok := by
          intro client r hr hcl
          have hcl' : client ∉ s.closed := fun hc => hcl (List.mem_cons_of_mem _ hc)
          have hg := h.live_ok client r hr hcl'
          have hne : r.address ≠ p.v := by
            intro he
            rw [he, hm] at hg
            cases hg
            exact hcl (List.mem_cons_self _ _)
          simpa [Obj.get_del_ne _ hne] using hg
        rem_eq := by
          show p.session :: s.removed = p.session :: s.closed
          rw [h.rem_eq]
        closed_lt := by
          intro client hcl
          show client < s.sessions.length
          rcases List.mem_cons.mp hcl with he | hcl
          · rw [he]
            by_contra hge
            rw [List.getElem?_eq_none (by omega)] at hrp
            cases hrp
          · exact h.closed_lt client hcl
        cache_lt := by
          intro a c ha
          have hne : a ≠ p.v := by
            rintro rfl
            simp at ha
          exact h.cache_lt a c (by simpa [Obj.get_del_ne _ hne] using ha)
        cache_inj := by
          intro a b c ha hb
          have hna : a ≠ p.v := by
            rintro rfl
            simp at ha
          have hnb : b ≠ p.v := by
            rintro rfl
            simp at hb
          exact h.cache_inj a b c (by simpa [Obj.get_del_ne _ hna] using ha)
            (by simpa [Obj.get_del_ne _ hnb] using hb)
        will_ok := h.will_ok
        hist_ok := fun q hq =>
          (h.hist_ok q (List.mem_of_mem_erase hq)).trans (List.sublist_append_left _ _) }

/-- Every handler keeps the consistency invariant. -/
theorem inv_step {P : Type} (codec : Codec P) {s : State} (h : Inv s) (e : Event) :
    Inv (step codec s e) := by
  cases e with
  | skirnirConnect device => exact inv_skirnirConnect codec h device
  | skirnirMessage device data => exact inv_skirnirMessage codec h device data
  | skirnirDisconnect device => exact inv_skirnirDisconnect codec h device
  | endCallback session => exact inv_endCallback codec h session
  | mqttConnect session => exact inv_mqttConnect codec h session
  | mqttMessage session topic message => exact inv_mqttMessage codec h session topic message

theorem inv_of_reachable {P : Type} (codec : Codec P) {s : State} (h : Reachable codec s) :
    Inv s := by
  induction h with
  | init => exact inv_init
  | step s e _ ih => exact inv_step codec ih e

theorem reachable_of_ordered {P : Type} (codec : Codec P) {s : State}
    (h : ReachableOrdered codec s) : Reachable codec s := by
  induction h with
  | init => exact Reachable.init
  | step s e _ _ _ ih => exact Reachable.step s e ih

/-! ## Teardown -/

theorem run_cons {P : Type} (codec : Codec P) (s : State) (e : Event) (es : List Event) :
    run codec s (e :: es) = run codec (step codec s e) es := rfl

theorem step_endCallback_directory {P : Type} (codec : Codec P) (s : State) (session : Nat) :
    (step codec s (.endCallback session)).mqtt_directory = s.mqtt_directory := by
  simp only [step, handle, onEndCallback]
  split
  · rfl
  · simp only [endCallbackBody]
    split <;> rfl

theorem run_endCallbacks_directory {P : Type} (codec : Codec P) (s : State)
    (order : List Nat) :
    (run codec s (order.map Event.endCallback)).mqtt_directory = s.mqtt_directory := by
  induction order generalizing s with
  | nil => rfl
  | cons x rest ih =>
    rw [List.map_cons, run_cons, ih, step_endCallback_directory]

/-- An end callback gives no entry to an address that has none. -/
theorem endCallback_keeps_none {P : Type} (codec : Codec P) {s : State} (h : Inv s)
    (x : Nat) (v : Address)
    (hn : s.mqtts.get v = none ∧ s.mqtt_caches.get v = none) :
    (step codec s (.endCallback x)).mqtts.get v = none ∧
      (step codec s (.endCallback x)).mqtt_caches.get v = none := by
  cases hf : s.pending.find? (fun p => decide (p.session = x)) with
  | none =>
    have hs : step codec s (.endCallback x) = { s with log := s.log ++ [] } := by
      simp [step, handle, onEndCallback_none hf]
    rw [hs]
    exact hn
  | some p =>
    obtain ⟨hp, hpx⟩ := find_pending hf
    have hm := h.pend_ok p hp
    have hs : step codec s (.endCallback x) =
        { s with pending := s.pending.erase p,
                 closed := p.session :: s.closed,
                 removed := p.session :: s.removed,
                 mqtts := s.mqtts.del p.v,
                 mqtt_caches := s.mqtt_caches.del p.v,
                 log := s.log ++ [Effect.removeAllListeners p.session] } := by
      simp [step, handle, onEndCallback_some hf hm]
    rw [hs]
    by_cases hpv : v = p.v
    · subst hpv
      simp
    · simpa [Obj.get_del_ne _ hpv] using hn

/-- After an end callback for client `x`, a pending end call of another client
is still pending, and the address of a pending end call of `x` has lost its
entries. -/
theorem endCallback_progress {P : Type} (codec : Codec P) {s : State} (h : Inv s)
    (x : Nat) (v : Address) (c : Nat) (hq : (⟨c, v⟩ : PendingClose) ∈ s.pending) :
    ((⟨c, v⟩ : PendingClose) ∈ (step codec s (.endCallback x)).pending ∧ x ≠ c) ∨
      ((step codec s (.endCallback x)).mqtts.get v = none ∧
        (step codec s (.endCallback x)).mqtt_caches.get v = none) := by
  cases hf : s.pending.find? (fun p => decide (p.session = x)) with
  | none =>
    have hs : step codec s (.endCallback x) = { s with log := s.log ++ [] } := by
      simp [step, handle, onEndCallback_none hf]
    rw [hs]
    left
    refine ⟨hq, ?_⟩
    rintro rfl
    have := List.find?_eq_none.mp hf _ hq
    simp at this
  | some p =>
    obtain ⟨hp, hpx⟩ := find_pending hf
    have hm := h.pend_ok p hp
    have hs : step codec s (.endCallback x) =
        { s with pending := s.pending.erase p,
                 closed := p.session :: s.closed,
                 removed := p.session :: s.removed,
                 mqtts := s.mqtts.del p.v,
                 mqtt_caches := s.mqtt_caches.del p.v,
                 log := s.log ++ [Effect.removeAllListeners p.session] } := by
      simp [step, handle, onEndCallback_some hf hm]
    rw [hs]
    by_cases hpv : p.v = v
    · right
      subst hpv
      simp
    · left
      have hne : (⟨c, v⟩ : PendingClose) ≠ p := by
        rintro rfl
        exact hpv rfl
      refine ⟨(List.mem_erase_of_ne hne).mpr hq, ?_⟩
      rintro rfl
      obtain ⟨r₁, hr₁, ha₁, -, -⟩ := h.sess_ok p.v p.session hm
      obtain ⟨r₂, hr₂, ha₂, -, -⟩ := h.sess_ok v x (h.pend_ok _ hq)
      rw [hpx, hr₂] at hr₁
      cases hr₁
      exact hpv (ha₁.symm.trans ha₂)

theorem run_endCallbacks_clears {P : Type} (codec : Codec P) {s : State} (h : Inv s)
    (order : List Nat) (v : Address) (c : Nat)
    (hv : ((⟨c, v⟩ : PendingClose) ∈ s.pending ∧ c ∈ order) ∨
      (s.mqtts.get v = none ∧ s.mqtt_caches.get v = none)) :
    (run codec s (order.map Event.endCallback)).mqtts.get v = none ∧
      (run codec s (order.map Event.endCallback)).mqtt_caches.get v = none := by
  induction order generalizing s with
  | nil =>
    rcases hv with ⟨_, hc⟩ | hn
    · cases hc
    · exact hn
  | cons x rest ih =>
    rw [List.map_cons, run_cons]
    apply ih (inv_step codec h _)
    rcases hv with ⟨hp, hc⟩ | hn
    · rcases endCallback_progress codec h x v c hp with ⟨hp', hne⟩ | hn'
      · left
        refine ⟨hp', ?_⟩
        rcases List.mem_cons.mp hc with rfl | hc'
        · exact absurd rfl hne
        · exact hc'
      · exact Or.inr hn'
    · exact Or.inr (endCallback_keeps_none codec h x v hn)

/-- C1: in every reachable state, for a link with a directory entry: once the
disconnect handler has run for the link and the end callback of every client
it ended has run (in any order, `order` naming at least those clients), neither
`mqtts` nor `mqtt_caches` has an entry for an address that was in the link's
array, and `mqtt_directory` has no entry for the link.  The handler itself
completes without an error and ends the client of every address of the array. -/
theorem teardown_complete {P : Type} (codec : Codec P) (s : State)
    (hreach : Reachable codec s) (device : Link) (arr : List Address)
    (hd : s.mqtt_directory.get device = some arr) (order : List Nat)
    (horder : ∀ client,
      Effect.endSession client true ∈ (onSkirnirDisconnect s device).effects → client ∈ order) :
    (onSkirnirDisconnect s device).error = none ∧
      (∀ v ∈ arr, ∃ client, s.mqtts.get v = some client ∧
        Effect.endSession client true ∈ (onSkirnirDisconnect s device).effects) ∧
      (∀ v ∈ arr,
        (run codec (step codec s (.skirnirDisconnect device))
            (order.map Event.endCallback)).mqtts.get v = none ∧
        (run codec (step codec s (.skirnirDisconnect device))
            (order.map Event.endCallback)).mqtt_caches.get v = none) ∧
      (run codec (step codec s (.skirnirDisconnect device))
          (order.map Event.endCallback)).mqtt_directory.get device = none := by
  have h := inv_of_reachable codec hreach
  have hok := onSkirnirDisconnect_ok h hd
  have hs : step codec s (.skirnirDisconnect device) =
      { s with pending := s.pending ++ closesOf s arr,
               mqtt_directory := s.mqtt_directory.del device,
               log := s.log ++ detachEffects s arr } := by
    simp [step, handle, hok]
  have hended : ∀ v ∈ arr, ∃ client, s.mqtts.get v = some client ∧
      (⟨client, v⟩ : PendingClose) ∈ closesOf s arr ∧
      Effect.endSession client true ∈ (onSkirnirDisconnect s device).effects := by
    intro v hv
    have hne := ((h.dir_ok device arr hd).2 v hv).1
    cases hc : s.mqtts.get v with
    | none => exact absurd hc hne
    | some client =>
      have hmem : (⟨client, v⟩ : PendingClose) ∈ closesOf s arr := mem_closesOf.mpr ⟨hv, hc⟩
      refine ⟨client, rfl, hmem, ?_⟩
      rw [hok]
      exact (offlineThenEnd_sublist_detachEffects hmem).subset (by simp [offlineThenEnd])
  refine ⟨by rw [hok], ?_, ?_, ?_⟩
  · intro v hv
    obtain ⟨client, h₁, -, h₃⟩ := hended v hv
    exact ⟨client, h₁, h₃⟩
  · intro v hv
    obtain ⟨client, -, h₂, h₃⟩ := hended v hv
    apply run_endCallbacks_clears codec (inv_step codec h _) order v client
    left
    refine ⟨?_, horder client h₃⟩
    rw [hs]
    exact List.mem_append_right _ h₂
  · rw [run_endCallbacks_directory, hs]
    simp

theorem reachable_demoState : Reachable demoCodec demoState :=
  Reachable.step _ _ (Reachable.step _ _ Reachable.init)

theorem reachable_demoDetached : Reachable demoCodec demoDetached :=
  Reachable.step _ _ reachable_demoState

theorem teardown_complete_witness :
    Reachable demoCodec demoState ∧
      demoState.mqtt_directory.get demoLink = some [7] ∧
      (run demoCodec (step demoCodec demoState (.skirnirDisconnect demoLink))
          ([0].map Event.endCallback)).mqtts.get 7 = none := by
  have horder : ∀ client,
      Effect.endSession client true ∈ (onSkirnirDisconnect demoState demoLink).effects →
        client ∈ [0] := by
    intro client hc
    have he : (onSkirnirDisconnect demoState demoLink).effects =
        [Effect.publish 0 "Se/7/connection" [0] true 0, Effect.endSession 0 true] := by
      decide
    rw [he] at hc
    simpa using hc
  have h := teardown_complete demoCodec demoState reachable_demoState demoLink [7]
    (by decide) [0] horder
  exact ⟨reachable_demoState, by decide, (h.2.2.1 7 (by simp)).1⟩

/-! ## Sessions -/

theorem skirnirMessage_undecodable {P : Type} (codec : Codec P) (s : State) (device : Link)
    (data : Bytes) (hdec : codec.fromBuffer data = none) :
    step codec s (.skirnirMessage device data) = s := by
  simp [step, handle, onSkirnirMessage, hdec]

/-- The fields of the state after a decodable frame. -/
theorem skirnirMessage_fields {P : Type} (codec : Codec P) (s : State) (device : Link)
    (data : Bytes) (packet : P) (hdec : codec.fromBuffer data = some packet) :
    (step codec s (.skirnirMessage device data)).mqtt_caches =
        (cacheStore (ensureCache s (codec.address packet)).1
          (ensureCache s (codec.address packet)).2 (codec.toMqtt packet).topic
          (codec.toMqtt packet).message).mqtt_caches ∧
      (step codec s (.skirnirMessage device data)).heap =
        (cacheStore (ensureCache s (codec.address packet)).1
          (ensureCache s (codec.address packet)).2 (codec.toMqtt packet).topic
          (codec.toMqtt packet).message).heap ∧
      (step codec s (.skirnirMessage device data)).pending = s.pending ∧
      (step codec s (.skirnirMessage device data)).closed = s.closed ∧
      (step codec s (.skirnirMessage device data)).removed = s.removed ∧
      (∀ client, s.mqtts.get (codec.address packet) = some client →
        (step codec s (.skirnirMessage device data)).mqtts = s.mqtts ∧
        (step codec s (.skirnirMessage device data)).sessions = s.sessions ∧
        (step codec s (.skirnirMessage device data)).mqtt_directory = s.mqtt_directory) ∧
      (s.mqtts.get (codec.address packet) = none →
        (step codec s (.skirnirMessage device data)).mqtts =
          s.mqtts.set (codec.address packet) s.sessions.length ∧
        (step codec s (.skirnirMessage device data)).sessions =
          s.sessions ++ [⟨codec.address packet, (ensureCache s (codec.address packet)).2,
            ⟨connectionTopic (codec.address packet), [0], true⟩⟩] ∧
        (∀ arr, s.mqtt_directory.get device = some arr →
          (step codec s (.skirnirMessage device data)).mqtt_directory =
            s.mqtt_directory.set device (arr ++ [codec.address packet])) ∧
        (s.mqtt_directory.get device = none →
          (step codec s (.skirnirMessage device data)).mqtt_directory = s.mqtt_directory)) := by
  cases hm : s.mqtts.get (codec.address packet) with
  | some client =>
    simp [step, handle, onSkirnirMessage, hdec, cacheStore, hm]
  | none =>
    cases hd : s.mqtt_directory.get device with
    | none => simp [step, handle, onSkirnirMessage, hdec, cacheStore, hm, hd, start_mqtt]
    | some arr => simp [step, handle, onSkirnirMessage, hdec, cacheStore, hm, hd, start_mqtt]

theorem skirnirDisconnect_step {P : Type} (codec : Codec P) {s : State} (h : Inv s)
    (device : Link) :
    (s.mqtt_directory.get device = none ∧ step codec s (.skirnirDisconnect device) = s) ∨
      (∃ arr, s.mqtt_directory.get device = some arr ∧
        step codec s (.skirnirDisconnect device) =
          { s with pending := s.pending ++ closesOf s arr,
                   mqtt_directory := s.mqtt_directory.del device,
                   log := s.log ++ detachEffects s arr }) := by
  cases hd : s.mqtt_directory.get device with
  | none =>
    left
    simp [step, handle, onSkirnirDisconnect, hd]
  | some arr =>
    right
    exact ⟨arr, rfl, by simp [step, handle, onSkirnirDisconnect_ok h hd]⟩

theorem endCallback_step {P : Type} (codec : Codec P) {s : State} (h : Inv s)
    (x : Nat) :
    step codec s (.endCallback x) = s ∨
      (∃ p, p ∈ s.pending ∧ p.session = x ∧ s.mqtts.get p.v = some x ∧
        step codec s (.endCallback x) =
          { s with pending := s.pending.erase p,
                   closed := p.session :: s.closed,
                   removed := p.session :: s.removed,
                   mqtts := s.mqtts.del p.v,
                   mqtt_caches := s.mqtt_caches.del p.v,
                   log := s.log ++ [Effect.removeAllListeners p.session] }) := by
  cases hf : s.pending.find? (fun p => decide (p.session = x)) with
  | none =>
    left
    simp [step, handle, onEndCallback_none hf]
  | some p =>
    right
    obtain ⟨hp, hpx⟩ := find_pending hf
    have hm := h.pend_ok p hp
    exact ⟨p, hp, hpx, hpx ▸ hm, by simp [step, handle, onEndCallback_some hf hm]⟩

theorem mqttConnect_step {P : Type} (codec : Codec P) (s : State) (session : Nat) :
    step codec s (.mqttConnect session) =
      { s with log := s.log ++ (onSessionConnect s session).effects } := by
  simp [step, handle, onSessionConnect_state]

theorem mqttMessage_step {P : Type} (codec : Codec P) (s : State) (session : Nat)
    (topic : Topic) (message : Bytes) :
    step codec s (.mqttMessage session topic message) =
      { s with log := s.log ++ (onSessionMessage codec s session topic message).effects } := by
  simp [step, handle, onSessionMessage_state]

/-- C2: in every reachable state, for every next event: (1) when the event
makes `start_mqtt` run (a client is added), it is a frame decoding to an
address that has no entry in `mqtts`, and the new client is stored under that
address; (2) when the entry `mqtts[v]` holding client `client` is removed or
replaced, the event is the end callback of that very client, whose end call
for `v` was pending; (3) so two live clients (created, end callback not yet
run) never have the same address. -/
theorem one_session_per_address {P : Type} (codec : Codec P) (s : State)
    (hreach : Reachable codec s) :
    (∀ e, (step codec s e).sessions ≠ s.sessions →
      ∃ device data packet, e = .skirnirMessage device data ∧
        codec.fromBuffer data = some packet ∧
        s.mqtts.get (codec.address packet) = none ∧
        (∃ cache, (step codec s e).sessions = s.sessions ++
          [⟨codec.address packet, cache, ⟨connectionTopic (codec.address packet), [0], true⟩⟩]) ∧
        (step codec s e).mqtts.get (codec.address packet) = some s.sessions.length) ∧
      (∀ e v client, s.mqtts.get v = some client →
        (step codec s e).mqtts.get v ≠ some client →
        e = .endCallback client ∧ (⟨client, v⟩ : PendingClose) ∈ s.pending) ∧
      (∀ c₁ c₂ r₁ r₂, Live s c₁ → Live s c₂ → s.sessions[c₁]? = some r₁ →
        s.sessions[c₂]? = some r₂ → r₁.address = r₂.address → c₁ = c₂) := by
  have h := inv_of_reachable codec hreach
  refine ⟨?_, ?_, ?_⟩
  · intro e hne
    cases e with
    | skirnirConnect device => exact absurd rfl hne
    | skirnirMessage device data =>
      cases hdec : codec.fromBuffer data with
      | none =>
        rw [skirnirMessage_undecodable codec s device data hdec] at hne
        exact absurd rfl hne
      | some packet =>
        obtain ⟨-, -, -, -, -, hsome, hnone⟩ := skirnirMessage_fields codec s device data packet hdec
        cases hm : s.mqtts.get (codec.address packet) with
        | some client => exact absurd (hsome client hm).2.1 hne
        | none =>
          obtain ⟨h₁, h₂, -, -⟩ := hnone hm
          exact ⟨device, data, packet, rfl, hdec, hm, ⟨_, h₂⟩, by rw [h₁]; simp⟩
    | skirnirDisconnect device =>
      rcases skirnirDisconnect_step codec h device with ⟨-, hs⟩ | ⟨arr, -, hs⟩ <;>
        · rw [hs] at hne
          exact absurd rfl hne
    | endCallback x =>
      rcases endCallback_step codec h x with hs | ⟨p, -, -, -, hs⟩ <;>
        · rw [hs] at hne
          exact absurd rfl hne
    | mqttConnect session =>
      rw [mqttConnect_step] at hne
      exact absurd rfl hne
    | mqttMessage session topic message =>
      rw [mqttMessage_step] at hne
      exact absurd rfl hne
  · intro e v client hv hne
    cases e with
    | skirnirConnect device => exact absurd hv hne
    | skirnirMessage device data =>
      exfalso
      cases hdec : codec.fromBuffer data with
      | none =>
        rw [skirnirMessage_undecodable codec s device data hdec] at hne
        exact hne hv
      | some packet =>
        obtain ⟨-, -, -, -, -, hsome, hnone⟩ := skirnirMessage_fields codec s device data packet hdec
        cases hm : s.mqtts.get (codec.address packet) with
        | some c =>
          rw [(hsome c hm).1] at hne
          exact hne hv
        | none =>
          have hva : v ≠ codec.address packet := by
            rintro rfl
            rw [hm] at hv
            cases hv
          rw [(hnone hm).1, Obj.get_set_ne _ _ hva] at hne
          exact hne hv
    | skirnirDisconnect device =>
      exfalso
      rcases skirnirDisconnect_step codec h device with ⟨-, hs⟩ | ⟨arr, -, hs⟩ <;>
        · rw [hs] at hne
          exact hne hv
    | endCallback x =>
      rcases endCallback_step codec h x with hs | ⟨p, hp, hpx, hm, hs⟩
      · rw [hs] at hne
        exact absurd hv hne
      · by_cases hpv : v = p.v
        · subst hpv
          rw [hm] at hv
          cases hv
          obtain ⟨session, w⟩ := p
          cases hpx
          exact ⟨rfl, hp⟩
        · rw [hs] at hne
          simp only [Obj.get_del_ne _ hpv] at hne
          exact absurd hv hne
    | mqttConnect session =>
      rw [mqttConnect_step] at hne
      exact absurd hv hne
    | mqttMessage session topic message =>
      rw [mqttMessage_step] at hne
      exact absurd hv hne
  · intro c₁ c₂ r₁ r₂ l₁ l₂ h₁ h₂ ha
    have g₁ := h.live_ok c₁ r₁ h₁ l₁.2
    have g₂ := h.live_ok c₂ r₂ h₂ l₂.2
    rw [ha, g₂] at g₁
    cases g₁
    rfl

theorem one_session_per_address_witness :
    Reachable demoCodec demoDetached ∧
      demoDetached.mqtts.get 7 = some 0 ∧
      (step demoCodec demoDetached (.endCallback 0)).mqtts.get 7 ≠ some 0 ∧
      (⟨0, 7⟩ : PendingClose) ∈ demoDetached.pending :=
  ⟨reachable_demoDetached, by decide, by decide,
    ((one_session_per_address demoCodec demoDetached reachable_demoDetached).2.1
      (.endCallback 0) 7 0 (by decide) (by decide)).2⟩

theorem cacheStore_get_ne_none (s : State) (a v : Address) (topic : Topic) (message : Bytes)
    (hv : s.mqtt_caches.get v ≠ none) :
    (cacheStore (ensureCache s a).1 (ensureCache s a).2 topic message).mqtt_caches.get v ≠
      none := by
  show (ensureCache s a).1.mqtt_caches.get v ≠ none
  by_cases hva : v = a
  · subst hva
    simp
  · rw [ensureCache_get_ne s hva]
    exact hv

/-- C4: in every reachable state: (1) the disconnect handler, run for a link
with a directory entry, completes without an error, leaves `mqtts` and
`mqtt_caches` as they are, and for every address `v` of the link's array issues
on `mqtts[v]` the publish of `[0]` to the topic `'Se/' + v + '/connection'`
(retain, qos 0) and, after it, the end call, whose callback is then pending;
(2) whenever an event removes the entry of `v` from `mqtts` or from
`mqtt_caches`, that event is the end callback of the client in `mqtts[v]`, its
end call for `v` was pending, and the offline publish to
`'Se/' + v + '/connection'` followed by that end call is already in the
history. -/
theorem offline_before_erase {P : Type} (codec : Codec P) (s : State)
    (hreach : Reachable codec s) :
    (∀ device arr, s.mqtt_directory.get device = some arr →
      (onSkirnirDisconnect s device).error = none ∧
      (onSkirnirDisconnect s device).state.mqtts = s.mqtts ∧
      (onSkirnirDisconnect s device).state.mqtt_caches = s.mqtt_caches ∧
      ∀ v ∈ arr, ∃ client, s.mqtts.get v = some client ∧
        [Effect.publish client ("Se/" ++ toString v ++ "/connection") [0] true 0,
          Effect.endSession client true].Sublist (onSkirnirDisconnect s device).effects ∧
        (⟨client, v⟩ : PendingClose) ∈ (onSkirnirDisconnect s device).state.pending) ∧
      (∀ e v,
        ((s.mqtts.get v ≠ none ∧ (step codec s e).mqtts.get v = none) ∨
          (s.mqtt_caches.get v ≠ none ∧ (step codec s e).mqtt_caches.get v = none)) →
        ∃ client, e = .endCallback client ∧ (⟨client, v⟩ : PendingClose) ∈ s.pending ∧
          s.mqtts.get v = some client ∧
          [Effect.publish client ("Se/" ++ toString v ++ "/connection") [0] true 0,
            Effect.endSession client true].Sublist s.log) := by
  have h := inv_of_reachable codec hreach
  refine ⟨?_, ?_⟩
  · intro device arr hd
    rw [onSkirnirDisconnect_ok h hd]
    refine ⟨rfl, rfl, rfl, ?_⟩
    intro v hv
    have hne := ((h.dir_ok device arr hd).2 v hv).1
    cases hc : s.mqtts.get v with
    | none => exact absurd hc hne
    | some client =>
      have hmem : (⟨client, v⟩ : PendingClose) ∈ closesOf s arr := mem_closesOf.mpr ⟨hv, hc⟩
      exact ⟨client, rfl, offlineThenEnd_sublist_detachEffects hmem,
        List.mem_append_right _ hmem⟩
  · intro e v hdel
    cases e with
    | skirnirConnect device =>
      exfalso
      rcases hdel with ⟨h₁, h₂⟩ | ⟨h₁, h₂⟩ <;> exact h₁ h₂
    | skirnirMessage device data =>
      exfalso
      cases hdec : codec.fromBuffer data with
      | none =>
        rw [skirnirMessage_undecodable codec s device data hdec] at hdel
        rcases hdel with ⟨h₁, h₂⟩ | ⟨h₁, h₂⟩ <;> exact h₁ h₂
      | some packet =>
        obtain ⟨hcaches, -, -, -, -, hsome, hnone⟩ :=
          skirnirMessage_fields codec s device data packet hdec
        rcases hdel with ⟨h₁, h₂⟩ | ⟨h₁, h₂⟩
        · cases hm : s.mqtts.get (codec.address packet) with
          | some c =>
            rw [(hsome c hm).1] at h₂
            exact h₁ h₂
          | none =>
            rw [(hnone hm).1, Obj.get_set] at h₂
            split at h₂
            · cases h₂
            · exact h₁ h₂
        · rw [hcaches] at h₂
          exact cacheStore_get_ne_none s _ v _ _ h₁ h₂
    | skirnirDisconnect device =>
      exfalso
      rcases skirnirDisconnect_step codec h device with ⟨-, hs⟩ | ⟨arr, -, hs⟩ <;>
        · rw [hs] at hdel
          rcases hdel with ⟨h₁, h₂⟩ | ⟨h₁, h₂⟩ <;> exact h₁ h₂
    | endCallback x =>
      rcases endCallback_step codec h x with hs | ⟨p, hp, hpx, hm, hs⟩
      · rw [hs] at hdel
        exfalso
        rcases hdel with ⟨h₁, h₂⟩ | ⟨h₁, h₂⟩ <;> exact h₁ h₂
      · by_cases hpv : v = p.v
        · subst hpv
          obtain ⟨session, w⟩ := p
          cases hpx
          exact ⟨session, rfl, hp, hm, h.hist_ok _ hp⟩
        · rw [hs] at hdel
          simp only [Obj.get_del_ne _ hpv] at hdel
          exfalso
          rcases hdel with ⟨h₁, h₂⟩ | ⟨h₁, h₂⟩ <;> exact h₁ h₂
    | mqttConnect session =>
      rw [mqttConnect_step] at hdel
      exfalso
      rcases hdel with ⟨h₁, h₂⟩ | ⟨h₁, h₂⟩ <;> exact h₁ h₂
    | mqttMessage session topic message =>
      rw [mqttMessage_step] at hdel
      exfalso
      rcases hdel with ⟨h₁, h₂⟩ | ⟨h₁, h₂⟩ <;> exact h₁ h₂

theorem offline_before_erase_witness :
    Reachable demoCodec demoDetached ∧
      demoDetached.mqtts.get 7 ≠ none ∧
      (step demoCodec demoDetached (.endCallback 0)).mqtts.get 7 = none ∧
      (∃ client, Event.endCallback 0 = .endCallback client ∧
        (⟨client, 7⟩ : PendingClose) ∈ demoDetached.pending ∧
        demoDetached.mqtts.get 7 = some client ∧
        [Effect.publish client "Se/7/connection" [0] true 0,
          Effect.endSession client true].Sublist demoDetached.log) :=
  ⟨reachable_demoDetached, by decide, by decide,
    (offline_before_erase demoCodec demoDetached reachable_demoDetached).2
      (.endCallback 0) 7 (Or.inl ⟨by decide, by decide⟩)⟩

/-! ## The connect listener of a client -/

/-- C8: in every reachable state, for a client made by `start_mqtt` for address
`A` whose listeners are in place: the client was opened with the will of topic
`'Se/' + A + '/connection'`, payload `[0]`, retain; the cache object it captured
is the one `mqtt_caches[A]` refers to; and its connect listener issues exactly,
in this order, the publish of `[1]` to `'Se/' + A + '/connection'` (retain,
qos 0), the subscribe to `'Se/' + A + '/pin/+/r'`, and one publish (retain,
qos 0) for every entry of that cache, in the enumeration order of the cache; it
changes no state and raises no error. -/
theorem connect_listener_sequence {P : Type} (codec : Codec P) (s : State)
    (hreach : Reachable codec s) (client : Nat) (r : SessionRec)
    (hr : s.sessions[client]? = some r) (hl : client ∉ s.removed) :
    r.will = ⟨"Se/" ++ toString r.address ++ "/connection", [0], true⟩ ∧
      ∃ cache, cacheOf s r.address = some cache ∧ s.heap[r.cache]? = some cache ∧
        onSessionConnect s client =
          ⟨s,
           [Effect.publish client ("Se/" ++ toString r.address ++ "/connection") [1] true 0,
            Effect.subscribe client ("Se/" ++ toString r.address ++ "/pin/+/r")] ++
             cache.entries.map (fun e => Effect.publish client e.1 e.2 true 0),
           none⟩ := by
  have h := inv_of_reachable codec hreach
  refine ⟨h.will_ok client r hr, ?_⟩
  have hcl : client ∉ s.closed := h.rem_eq ▸ hl
  have hm := h.live_ok client r hr hcl
  obtain ⟨r', hr', -, hc, -⟩ := h.sess_ok r.address client hm
  rw [hr] at hr'
  cases hr'
  have hlt := h.cache_lt r.address r.cache hc
  refine ⟨s.heap[r.cache], ?_, List.getElem?_eq_getElem hlt, ?_⟩
  · simp [cacheOf, hc, List.getElem?_eq_getElem hlt]
  · simp [onSessionConnect, hr, hl, List.getElem?_eq_getElem hlt, connectionTopic, pinPattern]

theorem connect_listener_sequence_witness :
    Reachable demoCodec demoState ∧
      demoState.sessions[0]? = some ⟨7, 0, ⟨"Se/7/connection", [0], true⟩⟩ ∧
      0 ∉ demoState.removed ∧
      (∃ cache, cacheOf demoState 7 = some cache ∧ demoState.heap[0]? = some cache ∧
        onSessionConnect demoState 0 =
          ⟨demoState,
           [Effect.publish 0 "Se/7/connection" [1] true 0,
            Effect.subscribe 0 "Se/7/pin/+/r"] ++
             cache.entries.map (fun e => Effect.publish 0 e.1 e.2 true 0),
           none⟩) :=
  ⟨reachable_demoState, by decide, by decide,
    (connect_listener_sequence demoCodec demoState reachable_demoState 0
      ⟨7, 0, ⟨"Se/7/connection", [0], true⟩⟩ (by decide) (by decide)).2⟩

/-! ## The directory -/

theorem onSkirnirMessage_error {P : Type} (codec : Codec P) (s : State) (device : Link)
    (data : Bytes) (packet : P) (hdec : codec.fromBuffer data = some packet)
    (hm : s.mqtts.get (codec.address packet) = none)
    (hd : s.mqtt_directory.get device = none) :
    (onSkirnirMessage codec s device data).error = some typeError := by
  simp [onSkirnirMessage, hdec, cacheStore, hm, hd, start_mqtt]

theorem covered_step {P : Type} (codec : Codec P) {s : State} (h : Inv s) (hcov : Covered s)
    (e : Event) (herr : (handle codec s e).error = none)
    (hnew : ∀ device, e = .skirnirConnect device → s.mqtt_directory.get device = none) :
    Covered (step codec s e) := by
  cases e with
  | skirnirConnect device =>
    have hnone := hnew device rfl
    intro v client hv hp
    obtain ⟨d, arr, hd, hmem⟩ := hcov v client hv hp
    have hne : d ≠ device := by
      rintro rfl
      rw [hnone] at hd
      cases hd
    refine ⟨d, arr, ?_, hmem⟩
    show (s.mqtt_directory.set device []).get d = some arr
    rw [Obj.get_set_ne _ _ hne]
    exact hd
  | skirnirMessage device data =>
    cases hdec : codec.fromBuffer data with
    | none =>
      rw [skirnirMessage_undecodable codec s device data hdec]
      exact hcov
    | some packet =>
      obtain ⟨-, -, hpend, -, -, hsome, hnone⟩ :=
        skirnirMessage_fields codec s device data packet hdec
      intro v client hv hp
      have hp' : ¬ ClosePending s v := by
        rintro ⟨q, hq, hqv⟩
        exact hp ⟨q, hpend ▸ hq, hqv⟩
      cases hm : s.mqtts.get (codec.address packet) with
      | some c =>
        obtain ⟨h₁, -, h₃⟩ := hsome c hm
        rw [h₁] at hv
        obtain ⟨d, arr, hd, hmem⟩ := hcov v client hv hp'
        exact ⟨d, arr, h₃ ▸ hd, hmem⟩
      | none =>
        cases hdir : s.mqtt_directory.get device with
        | none =>
          have := onSkirnirMessage_error codec s device data packet hdec hm hdir
          rw [show handle codec s (.skirnirMessage device data) =
            onSkirnirMessage codec s device data from rfl, this] at herr
          cases herr
        | some arr =>
          obtain ⟨h₁, -, h₃, -⟩ := hnone hm
          have hdir' := h₃ arr hdir
          by_cases hva : v = codec.address packet
          · refine ⟨device, arr ++ [codec.address packet], ?_, ?_⟩
            · rw [hdir']; simp
            · simp [hva]
          · rw [h₁, Obj.get_set_ne _ _ hva] at hv
            obtain ⟨d, arr', hd, hmem⟩ := hcov v client hv hp'
            by_cases hdd : d = device
            · subst hdd
              rw [hdir] at hd
              cases hd
              refine ⟨d, arr ++ [codec.address packet], ?_, ?_⟩
              · rw [hdir']; simp
              · simp [hmem]
            · refine ⟨d, arr', ?_, hmem⟩
              rw [hdir', Obj.get_set_ne _ _ hdd]
              exact hd
  | skirnirDisconnect device =>
    rcases skirnirDisconnect_step codec h device with ⟨-, hs⟩ | ⟨arr, hdir, hs⟩
    · rw [hs]
      exact hcov
    · rw [hs]
      intro v client hv hp
      have hv' : s.mqtts.get v = some client := hv
      have hp' : ¬ ClosePending s v := by
        rintro ⟨q, hq, hqv⟩
        exact hp ⟨q, List.mem_append_left _ hq, hqv⟩
      obtain ⟨d, arr', hd, hmem⟩ := hcov v client hv' hp'
      have hne : d ≠ device := by
        rintro rfl
        rw [hdir] at hd
        cases hd
        exact hp ⟨⟨client, v⟩, List.mem_append_right _ (mem_closesOf.mpr ⟨hmem, hv'⟩), rfl⟩
      refine ⟨d, arr', ?_, hmem⟩
      show (s.mqtt_directory.del device).get d = some arr'
      rw [Obj.get_del_ne _ hne]
      exact hd
  | endCallback x =>
    rcases endCallback_step codec h x with hs | ⟨p, hp, -, -, hs⟩
    · rw [hs]
      exact hcov
    · rw [hs]
      intro v client hv hcp
      have hne : v ≠ p.v := by
        rintro rfl
        simp at hv
      have hv' : s.mqtts.get v = some client := by
        simpa [Obj.get_del_ne _ hne] using hv
      have hcp' : ¬ ClosePending s v := by
        rintro ⟨q, hq, hqv⟩
        have hqp : q ≠ p := by
          rintro rfl
          exact hne hqv.symm
        exact hcp ⟨q, (List.mem_erase_of_ne hqp).mpr hq, hqv⟩
      exact hcov v client hv' hcp'
  | mqttConnect session =>
    rw [mqttConnect_step]
    exact hcov
  | mqttMessage session topic message =>
    rw [mqttMessage_step]
    exact hcov

theorem covered_of_ordered {P : Type} (codec : Codec P) {s : State}
    (h : ReachableOrdered codec s) : Covered s := by
  induction h with
  | init =>
    intro v client hv
    simp [init] at hv
  | step s e hs herr hnew ih =>
    exact covered_step codec (inv_of_reachable codec (reachable_of_ordered codec hs)) ih e
      herr hnew

/-- C10 (as the source behaves): in every state reached by events whose
handlers all complete and in which no attach names a link that already has a
directory entry: every address with a client in `mqtts` and no pending end call
is in the array of exactly one link; no array lists an address twice and no
address is in the arrays of two links; and a detach of a link with a directory
entry completes and leaves no entry, hence no address, for that link. -/
theorem directory_consistent {P : Type} (codec : Codec P) (s : State)
    (hreach : ReachableOrdered codec s) :
    (∀ v client, s.mqtts.get v = some client → ¬ ClosePending s v →
      ∃ device, ListedUnder s device v ∧ ∀ other, ListedUnder s other v → other = device) ∧
      (∀ device arr, s.mqtt_directory.get device = some arr → arr.Nodup) ∧
      (∀ d₁ d₂ v, ListedUnder s d₁ v → ListedUnder s d₂ v → d₁ = d₂) ∧
      (∀ device arr, s.mqtt_directory.get device = some arr →
        (handle codec s (.skirnirDisconnect device)).error = none ∧
        (step codec s (.skirnirDisconnect device)).mqtt_directory.get device = none ∧
        ∀ v, ¬ ListedUnder (step codec s (.skirnirDisconnect device)) device v) := by
  have h := inv_of_reachable codec (reachable_of_ordered codec hreach)
  have hinj : ∀ d₁ d₂ v, ListedUnder s d₁ v → ListedUnder s d₂ v → d₁ = d₂ := by
    rintro d₁ d₂ v ⟨a₁, h₁, m₁⟩ ⟨a₂, h₂, m₂⟩
    exact h.dir_inj d₁ d₂ a₁ a₂ v h₁ h₂ m₁ m₂
  refine ⟨?_, fun device arr hd => (h.dir_ok device arr hd).1, hinj, ?_⟩
  · intro v client hv hp
    obtain ⟨d, hd⟩ := covered_of_ordered codec hreach v client hv hp
    exact ⟨d, hd, fun other ho => hinj other d v ho hd⟩
  · intro device arr hd
    have hok := onSkirnirDisconnect_ok h hd
    have hget : (step codec s (.skirnirDisconnect device)).mqtt_directory.get device = none := by
      simp [step, handle, hok]
    refine ⟨by simp [handle, hok], hget, ?_⟩
    rintro v ⟨arr', h₁, -⟩
    rw [hget] at h₁
    cases h₁

theorem orderedReachable_demoState : ReachableOrdered demoCodec demoState :=
  ReachableOrdered.step _ _
    (ReachableOrdered.step _ _ ReachableOrdered.init (by decide) (fun _ _ => rfl))
    (by decide) (fun _ hne => by cases hne)

theorem directory_consistent_witness :
    ReachableOrdered demoCodec demoState ∧
      demoState.mqtts.get 7 = some 0 ∧
      ¬ ClosePending demoState 7 ∧
      (∃ device, ListedUnder demoState device 7 ∧
        ∀ other, ListedUnder demoState other 7 → other = device) :=
  have hp : ¬ ClosePending demoState 7 := by
    rintro ⟨q, hq, -⟩
    have : demoState.pending = [] := by decide
    rw [this] at hq
    cases hq
  ⟨orderedReachable_demoState, by decide, hp,
    (directory_consistent demoCodec demoState orderedReachable_demoState).1 7 0
      (by decide) hp⟩

/-- C10 as stated fails: the events attach, frame of node 7, attach again on
one link are all handled without an error, and afterwards node 7 has a client
in `mqtts` with no end call pending while no link has it in its array. -/
theorem double_attach_orphans_session :
    Reachable demoCodec demoReattached ∧
      (handle demoCodec init (.skirnirConnect demoLink)).error = none ∧
      (handle demoCodec (step demoCodec init (.skirnirConnect demoLink))
        (.skirnirMessage demoLink [7, 1, 22])).error = none ∧
      (handle demoCodec demoState (.skirnirConnect demoLink)).error = none ∧
      demoReattached.mqtts.get 7 = some 0 ∧
      ¬ ClosePending demoReattached 7 ∧
      ∀ device, ¬ ListedUnder demoReattached device 7 := by
  refine ⟨Reachable.step _ _ reachable_demoState, by decide, by decide, by decide,
    by decide, ?_, ?_⟩
  · rintro ⟨q, hq, -⟩
    have : demoReattached.pending = [] := by decide
    rw [this] at hq
    cases hq
  · rintro device ⟨arr, hd, hmem⟩
    have hdir : demoReattached.mqtt_directory = ⟨[(demoLink, [])]⟩ := by decide
    rw [hdir] at hd
    simp only [Obj.get, Obj.lookup] at hd
    split at hd
    · cases hd
      cases hmem
    · cases hd

/-! ## The retained cache -/

theorem lastPayload_nil (topic : Topic) : lastPayload [] topic = none := rfl

theorem lastPayload_cons (m : MqttMessage) (ms : List MqttMessage) (topic : Topic) :
    lastPayload (m :: ms) topic =
      (lastPayload ms topic).or (if m.topic = topic then some m.message else none) := by
  unfold lastPayload
  rw [List.reverse_cons, List.find?_append, Option.map_or']
  congr 1
  by_cases h : m.topic = topic <;> simp [List.find?_cons, h]

theorem cacheEntry_congr {s s' : State} (hc : s'.mqtt_caches = s.mqtt_caches)
    (hh : s'.heap = s.heap) (a : Address) (topic : Topic) :
    cacheEntry s' a topic = cacheEntry s a topic := by
  simp [cacheEntry, cacheOf, hc, hh]

theorem cacheEntry_store {s : State} (h : Inv s) (a A : Address) (t T : Topic) (m : Bytes) :
    cacheEntry (cacheStore (ensureCache s a).1 (ensureCache s a).2 t m) A T =
      if a = A then (if t = T then some m else cacheEntry s A T) else cacheEntry s A T := by
  cases hc : s.mqtt_caches.get a with
  | some c =>
    rw [ensureCache_of_some s hc]
    have hlt := h.cache_lt a c hc
    by_cases haA : a = A
    · subst haA
      simp only [cacheEntry, cacheOf, cacheStore, hc, List.getElem?_modify_eq,
        List.getElem?_eq_getElem hlt, if_true]
      simp only [Option.map_eq_map, Option.map_some', Obj.get_set]
      by_cases htT : t = T
      · simp [htT]
      · simp [htT, Ne.symm htT]
    · simp only [if_neg haA]
      cases hA : s.mqtt_caches.get A with
      | none => simp [cacheEntry, cacheOf, cacheStore, hA]
      | some c' =>
        have hne : c ≠ c' := by
          rintro rfl
          exact haA (h.cache_inj a A c hc hA)
        simp [cacheEntry, cacheOf, cacheStore, hA, List.getElem?_modify_ne _ _ hne]
  | none =>
    rw [ensureCache_of_none s hc]
    by_cases haA : a = A
    · subst haA
      have hget : (s.heap ++ [(Obj.empty : Obj Topic Bytes)])[s.heap.length]? =
          some Obj.empty := by simp
      simp only [cacheEntry, cacheOf, cacheStore, hc, Obj.get_set_self,
        List.getElem?_modify_eq, hget, if_true]
      simp only [Option.map_eq_map, Option.map_some', Obj.get_set, Obj.get_empty]
      by_cases htT : t = T
      · simp [htT]
      · simp [htT, Ne.symm htT]
    · simp only [if_neg haA]
      have hAa : A ≠ a := fun he => haA he.symm
      cases hA : s.mqtt_caches.get A with
      | none => simp [cacheEntry, cacheOf, cacheStore, hA, Obj.get_set_ne _ _ hAa]
      | some c' =>
        have hlt := h.cache_lt A c' hA
        have hne : s.heap.length ≠ c' := by omega
        simp [cacheEntry, cacheOf, cacheStore, hA, Obj.get_set_ne _ _ hAa,
          List.getElem?_modify_ne _ _ hne, List.getElem?_append_left hlt]

/-- What one event that is not a detach does to the cache of an address with
no pending end call. -/
theorem cacheEntry_step {P : Type} (codec : Codec P) {s : State} (h : Inv s) (A : Address)
    (hp : ¬ ClosePending s A) (e : Event) (he : isDisconnect e = false) (T : Topic) :
    cacheEntry (step codec s e) A T =
        (match frameOf codec A e with
          | some m => if m.topic = T then some m.message else none
          | none => none).or (cacheEntry s A T) ∧
      ¬ ClosePending (step codec s e) A := by
  cases e with
  | skirnirConnect device => exact ⟨rfl, hp⟩
  | skirnirMessage device data =>
    cases hdec : codec.fromBuffer data with
    | none =>
      rw [skirnirMessage_undecodable codec s device data hdec]
      simp [frameOf, hdec, hp]
    | some packet =>
      obtain ⟨hcaches, hheap, hpend, -, -, -, -⟩ :=
        skirnirMessage_fields codec s device data packet hdec
      refine ⟨?_, ?_⟩
      · rw [cacheEntry_congr hcaches hheap, cacheEntry_store h]
        by_cases haA : codec.address packet = A
        · by_cases htT : (codec.toMqtt packet).topic = T <;> simp [frameOf, hdec, haA, htT]
        · simp [frameOf, hdec, haA]
      · rintro ⟨q, hq, hqv⟩
        exact hp ⟨q, hpend ▸ hq, hqv⟩
  | skirnirDisconnect device => simp [isDisconnect] at he
  | endCallback x =>
    rcases endCallback_step codec h x with hs | ⟨p, hpp, -, -, hs⟩
    · rw [hs]
      exact ⟨rfl, hp⟩
    · rw [hs]
      have hne : A ≠ p.v := fun heq => hp ⟨p, hpp, heq.symm⟩
      refine ⟨?_, ?_⟩
      · simp [frameOf, cacheEntry, cacheOf, Obj.get_del_ne _ hne]
      · rintro ⟨q, hq, hqv⟩
        exact hp ⟨q, List.mem_of_mem_erase hq, hqv⟩
  | mqttConnect session =>
    rw [mqttConnect_step]
    exact ⟨rfl, hp⟩
  | mqttMessage session topic message =>
    rw [mqttMessage_step]
    exact ⟨rfl, hp⟩

theorem cacheEntry_run {P : Type} (codec : Codec P) {s : State} (h : Inv s) (A : Address)
    (hp : ¬ ClosePending s A) (es : List Event) (hnd : ∀ e ∈ es, isDisconnect e = false)
    (T : Topic) :
    cacheEntry (run codec s es) A T =
      (lastPayload (framesFor codec A es) T).or (cacheEntry s A T) := by
  induction es generalizing s with
  | nil => simp [run, framesFor, lastPayload_nil]
  | cons e rest ih =>
    have he := hnd e (List.mem_cons_self e rest)
    obtain ⟨hstep, hp'⟩ := cacheEntry_step codec h A hp e he T
    rw [run_cons, ih (inv_step codec h e) hp' (fun e' he' => hnd e' (List.mem_cons_of_mem e he')),
      hstep]
    cases hf : frameOf codec A e with
    | none => simp [framesFor, List.filterMap_cons_none hf]
    | some m =>
      simp only [framesFor, List.filterMap_cons_some hf]
      rw [lastPayload_cons, Option.or_assoc]

/-- C3 (as the source behaves): start in a reachable state and let any events
other than a detach follow (frames on any link, attaches, end callbacks, client
events).  If no end call for `A` is pending at the start, then for every topic
`mqtt_caches[A][T]` is the payload of the last frame for `A` among them that
decoded to `T`, and is what it was before when there is no such frame.  So when
`mqtt_caches` had no entry for `A` at the start, `mqtt_caches[A][T]` is exactly
the payload of the last frame for `A` that decoded to `T`, and is undefined for
every topic no frame for `A` decoded to. -/
theorem cache_holds_latest {P : Type} (codec : Codec P) (s : State)
    (hreach : Reachable codec s) (A : Address) (es : List Event)
    (hnd : ∀ e ∈ es, isDisconnect e = false) :
    (¬ ClosePending s A → ∀ T, cacheEntry (run codec s es) A T =
        (lastPayload (framesFor codec A es) T).or (cacheEntry s A T)) ∧
      (s.mqtt_caches.get A = none → ∀ T, cacheEntry (run codec s es) A T =
        lastPayload (framesFor codec A es) T) := by
  have h := inv_of_reachable codec hreach
  refine ⟨fun hp T => cacheEntry_run codec h A hp es hnd T, ?_⟩
  intro hfresh T
  have hp : ¬ ClosePending s A := by
    rintro ⟨q, hq, hqv⟩
    obtain ⟨r, -, -, hc, -⟩ := h.sess_ok q.v q.session (h.pend_ok q hq)
    rw [hqv, hfresh] at hc
    cases hc
  rw [cacheEntry_run codec h A hp es hnd T]
  simp [cacheEntry, cacheOf, hfresh, Option.or_none]

theorem cache_holds_latest_witness :
    Reachable demoCodec demoAttached ∧
      (∀ e ∈ demoEvents, isDisconnect e = false) ∧
      demoAttached.mqtt_caches.get 7 = none ∧
      cacheEntry (run demoCodec demoAttached demoEvents) 7 "Se/7/pin/1" = some [23] ∧
      cacheEntry (run demoCodec demoAttached demoEvents) 7 "Se/7/pin/2" = some [5] ∧
      cacheEntry (run demoCodec demoAttached demoEvents) 7 "Se/7/pin/3" = none :=
  have hreach : Reachable demoCodec demoAttached := Reachable.step _ _ Reachable.init
  have hnd : ∀ e ∈ demoEvents, isDisconnect e = false := by decide
  have h := (cache_holds_latest demoCodec demoAttached hreach 7 demoEvents hnd).2 (by decide)
  ⟨hreach, hnd, by decide, (h "Se/7/pin/1").trans (by decide),
    (h "Se/7/pin/2").trans (by decide), (h "Se/7/pin/3").trans (by decide)⟩

/-- C3 as stated fails.  Link attached, a frame of node 7 on pin 1, link
detached and attached again: the link has a directory entry and the end call
for node 7 is pending.  Then two decodable frames of node 7 arrive on that
link, on pins 2 and 3, with no detach between them but with the end callback in
between.  After the first frame the cache still holds pin 1, a topic neither
frame decoded to; after both, the payload of the frame on pin 2 is gone. -/
theorem cache_emptied_between_frames :
    Reachable demoCodec demoTeardown ∧
      demoTeardown.mqtt_directory.get demoLink = some [] ∧
      (∀ e ∈ demoRace, isDisconnect e = false) ∧
      framesFor demoCodec 7 demoRace = [⟨"Se/7/pin/2", [5]⟩, ⟨"Se/7/pin/3", [9]⟩] ∧
      cacheEntry (run demoCodec demoTeardown [.skirnirMessage demoLink [7, 2, 5]]) 7
        "Se/7/pin/1" = some [22] ∧
      cacheEntry (run demoCodec demoTeardown demoRace) 7 "Se/7/pin/2" = none ∧
      cacheEntry (run demoCodec demoTeardown demoRace) 7 "Se/7/pin/3" = some [9] :=
  ⟨Reachable.step _ _ reachable_demoDetached, by decide, by decide, by decide, by decide,
    by decide, by decide⟩

end SeleneRelay
